import Mathlib

/-!
Verification development for the group-chat server (`src/chat_server.py`).

The server state (`self.clients`, `self.channels`) is embedded shallowly as
association lists with Python-dict update semantics; the command handlers,
broadcast routine, disconnect cleanup and the inactivity watchdog are
translated as pure state-passing functions that additionally return the list
of I/O actions (responses, events, socket closes, timer and process actions)
the Python code performs.  Timestamps, logging, colors and the raw byte loop
are elided; transport handles are modelled as natural numbers (Python socket
objects, which are distinct live objects, are the dictionary keys).  Network
writes performed inside cleanup notifications are modelled as succeeding;
write failures are modelled explicitly at the broadcast under scrutiny via a
`fails` parameter.

The embedding has two layers.  The functional layer gives each routine's
state effect — the mutations its `with self.lock:` bodies perform — with
lock acquisition elided.  The lock-aware layer (`LockExec` and the
`*_locked` definitions, plus `graceful_shutdown` / `check_inactivity`)
models the shared `threading.Lock` of line 77, which is NOT reentrant:
a `with self.lock:` entered by a thread that already holds the lock blocks
forever.  Several source paths re-acquire the lock on the same thread
(leave → remove_user_from_channel, broadcast cleanup → disconnect_client,
inactivity → graceful_shutdown) and therefore block before completing.
Crucially, every such path blocks BEFORE mutating `self.clients` or
`self.channels`, so each functional-layer transition either matches a
completed real execution or adds effects a blocked real execution never
produces: the functional layer's reachable states are a superset of the
program's reachable states, and invariants proved over it hold of every
state the program can reach.
-/

namespace ChatServer

/-- chr 39, used to rebuild the quote characters appearing in server
response strings. -/
def sq : String := String.singleton (Char.ofNat 39)

/-- Wrap a string in single quotes, as the Python f-strings do. -/
def squote (x : String) : String := sq ++ x ++ sq

/-- `ClientInfo` from the source, keeping the fields the logic reads
(`nickname`, `channels`); `socket` is the key of the registry map, and
`last_activity` / `address` are elided (no claim reads them).  The
`channels` set is a duplicate-free list. -/
structure ClientInfo where
  nickname : String
  channels : List String
deriving DecidableEq, Repr

/-- `self.clients : Dict[socket, ClientInfo]` and
`self.channels : Dict[str, Set[socket]]` of `ChatServer`. -/
structure ServerState where
  clients : List (Nat × ClientInfo)
  channels : List (String × List Nat)
deriving DecidableEq, Repr

/-- Python `dict` lookup on an association list (first matching key). -/
def lookupA {α β : Type} [DecidableEq α] (k : α) : List (α × β) → Option β
  | [] => none
  | (k', v) :: rest => if k' = k then some v else lookupA k rest

/-- Python `dict` assignment `d[k] = v`: replace the entry if the key is
present, append it otherwise. -/
def setA {α β : Type} [DecidableEq α] (k : α) (v : β) : List (α × β) → List (α × β)
  | [] => [(k, v)]
  | (k', v') :: rest => if k' = k then (k, v) :: rest else (k', v') :: setA k v rest

/-- Python `del d[k]`. -/
def eraseA {α β : Type} [DecidableEq α] (k : α) : List (α × β) → List (α × β)
  | [] => []
  | (k', v') :: rest => if k' = k then rest else (k', v') :: eraseA k rest

/-- Python `set.add`: a no-op when the element is already present. -/
def addElem {α : Type} [DecidableEq α] (x : α) (l : List α) : List α :=
  if x ∈ l then l else x :: l

/-- `self.default_channel = "#general"`. -/
def default_channel : String := "#general"

/-- `ChatServer.__init__`: empty registry, directory holding only the
default channel with no members. -/
def initialState : ServerState := ⟨[], [(default_channel, [])]⟩

/-- The event payloads the server broadcasts or sends
(`timestamp` fields elided). -/
inductive EventPayload where
  | user_joined (nickname channel : String)
  | user_left (nickname channel : String)
  | nick_change (old_nickname new_nickname channel : String)
  | message (nickname channel text : String)
  | channel_list (entries : List (String × Nat))
deriving DecidableEq, Repr

/-- The externally visible actions a handler performs, in program order:
JSON responses (`send_response` with `success` flag and `message`), event
deliveries to a target socket, socket closes, and the server-lifecycle
actions of `graceful_shutdown` / `reset_inactivity_timer`. -/
inductive Action where
  | sendResponse (target : Nat) (success : Bool) (message : String)
  | sendEvent (target : Nat) (payload : EventPayload)
  | closeConn (target : Nat)
  | stopAccepting
  | cancelTimer
  | closeListener
  | exitProcess (code : Nat)
  | rearmTimer
deriving DecidableEq, Repr

/-- Python `s.startswith(t)` for a one-character prefix: head-character
test (structural over the character list). -/
def pyStartsWith (s : String) (c : Char) : Bool :=
  match s.toList with
  | [] => false
  | a :: _ => a == c

/-- Python `s[1:]`. -/
def pyDrop1 (s : String) : String := String.mk (s.toList.drop 1)

/-- Python `str.lower()` (ASCII, as the command verbs are ASCII). -/
def pyLower (s : String) : String := String.mk (s.toList.map Char.toLower)

/-- Accumulator loop of `pySplit`. -/
def pySplitAux (acc : List Char) : List Char → List String
  | [] => if acc = [] then [] else [String.mk acc.reverse]
  | ch :: rest =>
      if ch.isWhitespace then
        if acc = [] then pySplitAux [] rest
        else String.mk acc.reverse :: pySplitAux [] rest
      else pySplitAux (ch :: acc) rest

/-- Python `str.split()`: split on whitespace runs, dropping empty pieces. -/
def pySplit (s : String) : List String := pySplitAux [] s.toList

/-- `if nickname:`-style fallback `client_info.nickname or "Unknown"`. -/
def orUnknown (n : String) : String := if n = "" then "Unknown" else n

/-- The delivery part of `broadcast_to_channel` when no write fails: send
the serialized event to every member of the channel except `exclude`
(missing channel: nothing to do).  Used at the call sites inside the
handlers, whose notification writes are modelled as succeeding. -/
def broadcastDeliver (payload : EventPayload) (channel : String)
    (exclude : Option Nat) (s : ServerState) : List Action :=
  match lookupA channel s.channels with
  | none => []
  | some members =>
      (members.filter (fun m => decide (some m ≠ exclude))).map
        (fun m => Action.sendEvent m payload)

/-- State effect of `remove_user_from_channel`'s body: drop the channel
from the client's set and the client from the channel's member set, delete
the channel if it became empty and is not the default, then send the
`Left channel` success response and broadcast `user_left` to the remaining
members (no exclusion).  Lock acquisition is elided here: the function's
own `with self.lock:` (line 550) in fact blocks forever at every call site
in the source, because every caller already holds the non-reentrant lock —
see `remove_user_from_channel_locked` below.  Since it blocks before
mutating anything, this completed effect over-approximates what real
executions can do. -/
def remove_user_from_channel (s : ServerState) (c : Nat) (channel : String) :
    ServerState × List Action :=
  match lookupA c s.clients with
  | none => (s, [])
  | some info =>
      let info' : ClientInfo := { info with channels := info.channels.erase channel }
      let clients' := setA c info' s.clients
      let channels' :=
        match lookupA channel s.channels with
        | none => s.channels
        | some members =>
            if c ∈ members then
              let members' := members.erase c
              if members' = [] ∧ channel ≠ default_channel then eraseA channel s.channels
              else setA channel members' s.channels
            else s.channels
      let s' : ServerState := ⟨clients', channels'⟩
      (s', Action.sendResponse c true ("Left channel " ++ channel) ::
            broadcastDeliver (.user_left (orUnknown info.nickname) channel) channel none s')

/-- The loop `for channel in list(client_info.channels): remove_user_from_channel`
shared by `handle_leave_command` (no argument) and `disconnect_client`. -/
def remove_from_each (s : ServerState) (c : Nat) : List String → ServerState × List Action
  | [] => (s, [])
  | ch :: rest =>
      let r1 := remove_user_from_channel s c ch
      let r2 := remove_from_each r1.1 c rest
      (r2.1, r1.2 ++ r2.2)

/-- State effect of `disconnect_client`'s body: no-op on an unknown
socket; otherwise remove the client from every channel it belongs to,
close the socket and delete it from the registry.  Lock acquisition is
elided: in the source the `remove_user_from_channel` call at line 596 runs
under the lock taken at line 588 and re-acquires it at line 550, so the
real execution blocks — before any mutation — for any client with at least
one channel; see `disconnect_client_locked` below.  This completed effect
therefore over-approximates the real reachable states. -/
def disconnect_client (s : ServerState) (c : Nat) : ServerState × List Action :=
  match lookupA c s.clients with
  | none => (s, [])
  | some info =>
      let r := remove_from_each s c info.channels
      (⟨eraseA c r.1.clients, r.1.channels⟩, r.2 ++ [Action.closeConn c])

/-- The cleanup loop at the end of `broadcast_to_channel`:
`for client_socket in disconnected_clients: self.disconnect_client(client_socket)`. -/
def disconnect_each (s : ServerState) : List Nat → ServerState × List Action
  | [] => (s, [])
  | c :: rest =>
      let r1 := disconnect_client s c
      let r2 := disconnect_each r1.1 rest
      (r2.1, r1.2 ++ r2.2)

/-- State effect of `broadcast_to_channel`'s body: send the serialized
event to every member of the channel except `exclude`; the writes listed
in `fails` raise, their targets are collected and then given the
`disconnect_client` cleanup the code intends, without aborting delivery to
the rest.  Lock acquisition is elided: in the source the cleanup runs
while the lock taken at line 521 is still held, and `disconnect_client`
re-acquires it at line 588, so a real broadcast with any failing write
blocks after its sends and before any cleanup mutation — see
`broadcast_to_channel_locked` below.  This completed effect therefore
over-approximates the real reachable states. -/
def broadcast_to_channel (fails : List Nat) (payload : EventPayload)
    (channel : String) (exclude : Option Nat) (s : ServerState) :
    ServerState × List Action :=
  match lookupA channel s.channels with
  | none => (s, [])
  | some members =>
      let targets := members.filter (fun m => decide (some m ≠ exclude))
      let delivered := targets.filter (fun m => decide (m ∉ fails))
      let disconnected := targets.filter (fun m => decide (m ∈ fails))
      let r := disconnect_each s disconnected
      (r.1, delivered.map (fun m => Action.sendEvent m payload) ++ r.2)

/-- `handle_nick_command`: argument and length validation, then the
uniqueness check over all other registered clients; on success the nickname
is assigned and, when the previous nickname was non-empty, a `nick_change`
event is broadcast to each of the client's channels excluding itself. -/
def handle_nick_command (s : ServerState) (c : Nat) (args : List String) :
    ServerState × List Action :=
  match args with
  | [] => (s, [Action.sendResponse c false "Usage: /nick <nickname>"])
  | new_nick :: _ =>
      if new_nick.length > 32 then
        (s, [Action.sendResponse c false "Nickname too long (max 32 characters)"])
      else if _conflict : ∃ q ∈ s.clients, q.1 ≠ c ∧ q.2.nickname = new_nick then
        (s, [Action.sendResponse c false
              ("Nickname " ++ squote new_nick ++ " is already in use")])
      else
        match lookupA c s.clients with
        | none => (s, [])
        | some info =>
            let s' : ServerState :=
              { s with clients := setA c { info with nickname := new_nick } s.clients }
            let evs :=
              if info.nickname ≠ "" then
                info.channels.foldl
                  (fun acc ch =>
                    acc ++ broadcastDeliver (.nick_change info.nickname new_nick ch)
                            ch (some c) s') []
              else []
            (s', Action.sendResponse c true
                  ("Nickname set to " ++ squote new_nick) :: evs)

/-- `handle_list_command`: a snapshot of the directory as
`{name, user count}` entries. -/
def handle_list_command (s : ServerState) (c : Nat) : ServerState × List Action :=
  (s, [Action.sendEvent c (.channel_list (s.channels.map (fun p => (p.1, p.2.length))))])

/-- `handle_join_command`: default channel on a missing argument, `#`
normalization, duplicate-join rejection, creation of an absent channel,
symmetric insertion, success response and `user_joined` broadcast excluding
the joiner. -/
def handle_join_command (s : ServerState) (c : Nat) (args : List String) :
    ServerState × List Action :=
  let channel :=
    match args with
    | [] => default_channel
    | a :: _ => if pyStartsWith a (Char.ofNat 35) then a else "#" ++ a
  match lookupA c s.clients with
  | none => (s, [])
  | some info =>
      if channel ∈ info.channels then
        (s, [Action.sendResponse c false ("You are already in " ++ channel)])
      else
        let members := (lookupA channel s.channels).getD []
        let s' : ServerState :=
          ⟨setA c { info with channels := addElem channel info.channels } s.clients,
           setA channel (addElem c members) s.channels⟩
        (s', Action.sendResponse c true ("Joined channel " ++ channel) ::
              broadcastDeliver (.user_joined (orUnknown info.nickname) channel)
                channel (some c) s')

/-- State effect of `handle_leave_command`'s body: with no argument, leave
every channel the client currently belongs to; with an argument, normalize
it, reject a channel the client is not in, else leave that one.  Lock
acquisition is elided: in the source the `remove_user_from_channel` calls
at lines 432/439 run under the lock taken at line 421 and re-acquire it at
line 550, so every real leave that reaches a removal blocks before any
effect — see `handle_leave_command_locked` below.  This completed effect
therefore over-approximates the real reachable states. -/
def handle_leave_command (s : ServerState) (c : Nat) (args : List String) :
    ServerState × List Action :=
  match lookupA c s.clients with
  | none => (s, [])
  | some info =>
      match args with
      | [] => remove_from_each s c info.channels
      | a :: _ =>
          let channel := if pyStartsWith a (Char.ofNat 35) then a else "#" ++ a
          if channel ∈ info.channels then remove_user_from_channel s c channel
          else (s, [Action.sendResponse c false ("You are not in " ++ channel)])

/-- `handle_quit_command`: farewell response then full disconnect cleanup. -/
def handle_quit_command (s : ServerState) (c : Nat) : ServerState × List Action :=
  let r := disconnect_client s c
  (r.1, Action.sendResponse c true "Goodbye!" :: r.2)

/-- The static help payload of `handle_help_command` (body abbreviated to
its header; no claim depends on the text). -/
def helpText : String := "=== CHAT SERVER HELP ==="

/-- `handle_help_command`: static success response, no mutation. -/
def handle_help_command (s : ServerState) (c : Nat) : ServerState × List Action :=
  (s, [Action.sendResponse c true helpText])

/-- `handle_chat_message`: reject when the client has no nickname or no
channel, else broadcast a `message` event to every channel the client
belongs to, excluding itself. -/
def handle_chat_message (s : ServerState) (c : Nat) (text : String) :
    ServerState × List Action :=
  match lookupA c s.clients with
  | none => (s, [])
  | some info =>
      if info.nickname = "" then
        (s, [Action.sendResponse c false
              "Please set a nickname first with /nick <nickname>"])
      else if info.channels = [] then
        (s, [Action.sendResponse c false
              "Please join a channel first with /join <channel>"])
      else
        (s, info.channels.foldl
              (fun acc ch =>
                acc ++ broadcastDeliver (.message info.nickname ch text) ch (some c) s) [])

/-- `process_command`: ignore sockets missing from the registry, parse a
leading `/` command word (lowercased) with its arguments and dispatch;
anything else is a plain chat line. -/
def process_command (s : ServerState) (c : Nat) (command : String) :
    ServerState × List Action :=
  if (lookupA c s.clients).isSome then
    if pyStartsWith command (Char.ofNat 47) then
      match pySplit (pyDrop1 command) with
      | [] => (s, [])
      | cmdWord :: args =>
          let cmd := pyLower cmdWord
          if cmd = "nick" then handle_nick_command s c args
          else if cmd = "list" then handle_list_command s c
          else if cmd = "join" then handle_join_command s c args
          else if cmd = "leave" then handle_leave_command s c args
          else if cmd = "quit" then handle_quit_command s c
          else if cmd = "help" then handle_help_command s c
          else (s, [Action.sendResponse c false ("Unknown command: /" ++ cmd)])
    else handle_chat_message s c command
  else (s, [])

/-- A successfully decoded JSON object, restricted to the string fields
`process_client_message` reads (`data.get` yields `none` for an absent
field). -/
structure JsonObj where
  type : Option String := none
  command : Option String := none
  nickname : Option String := none
deriving DecidableEq, Repr

/-- The JSON-success path of `process_client_message`: frames whose `type`
is not `"command"` are dropped silently; command frames first overwrite the
registered client's nickname when the envelope carries a non-empty one
(no uniqueness check), then dispatch the command string. -/
def process_client_message (s : ServerState) (c : Nat) (data : JsonObj) :
    ServerState × List Action :=
  if data.type = some "command" then
    let command := data.command.getD ""
    let nickname := data.nickname.getD ""
    let s1 :=
      match lookupA c s.clients with
      | some info =>
          if nickname ≠ "" then
            { s with clients := setA c { info with nickname := nickname } s.clients }
          else s
      | none => s
    process_command s1 c command
  else (s, [])

/-- The registration step of `accept_clients`: a fresh `ClientInfo` stored
under the new socket.  A transport handle is never re-accepted while still
registered (Python socket objects are distinct live objects), so accepting
an already-registered handle is modelled as a no-op. -/
def acceptClient (s : ServerState) (c : Nat) : ServerState :=
  if (lookupA c s.clients).isSome then s
  else { s with clients := setA c ⟨"", []⟩ s.clients }

/-- The inactivity window of `reset_inactivity_timer`
(`threading.Timer(180.0, ...)`), in seconds. -/
def inactivitySeconds : Nat := 180

/-- Outcome of running one code path on a thread, with the shared
non-reentrant `threading.Lock` (chat_server.py line 77) modelled
explicitly.  A `with self.lock:` entered while the same thread already
holds the lock blocks forever, so a path either completes (`done`, with
the final shared state and the I/O actions it performed) or the thread
blocks forever on a lock re-acquisition (`blocked`, with the shared state
and the actions already performed at the moment it blocks). -/
inductive LockExec where
  | done (s : ServerState) (acts : List Action)
  | blocked (s : ServerState) (acts : List Action)
deriving DecidableEq, Repr

/-- `remove_user_from_channel`, lock-aware.  Its own `with self.lock:`
(line 550) blocks forever when the calling thread already holds the lock —
which is the case at every call site in the source: `handle_leave_command`
calls it at lines 432/439 under the lock taken at line 421, and
`disconnect_client` calls it at line 596 under the lock taken at line 588.
Entered lock-free it completes with the functional effect (its
notification writes at lines 566/569 run after the release). -/
def remove_user_from_channel_locked (locked : Bool) (s : ServerState)
    (c : Nat) (channel : String) : LockExec :=
  if locked then .blocked s []
  else .done (remove_user_from_channel s c channel).1
        (remove_user_from_channel s c channel).2

/-- `disconnect_client`, lock-aware.  Its `with self.lock:` (line 588)
blocks when the caller already holds the lock (the broadcast cleanup at
line 540).  Entered lock-free, a client with at least one channel makes
the first `remove_user_from_channel` call (line 596) re-acquire the lock
at line 550 and block before any mutation; only a channel-less client is
actually cleaned up (registry entry deleted, socket closed). -/
def disconnect_client_locked (locked : Bool) (s : ServerState) (c : Nat) :
    LockExec :=
  if locked then .blocked s []
  else
    match lookupA c s.clients with
    | none => .done s []
    | some info =>
        match info.channels with
        | [] => .done ⟨eraseA c s.clients, s.channels⟩ [Action.closeConn c]
        | ch :: _ => remove_user_from_channel_locked true s c ch

/-- `handle_leave_command`, lock-aware (entered lock-free from
`process_command`; acquires at line 421).  The not-a-member error path
completes under the lock; every path that reaches
`remove_user_from_channel` (lines 432, 439) does so while holding the lock
and blocks at line 550 before any removal, any response, and any user_left
event.  A missing registry entry raises KeyError at line 422 before any
mutation, modelled as completion with no effect. -/
def handle_leave_command_locked (s : ServerState) (c : Nat)
    (args : List String) : LockExec :=
  match lookupA c s.clients with
  | none => .done s []
  | some info =>
      match args with
      | [] =>
          match info.channels with
          | [] => .done s []
          | ch :: _ => remove_user_from_channel_locked true s c ch
      | a :: _ =>
          let channel := if pyStartsWith a (Char.ofNat 35) then a else "#" ++ a
          if channel ∈ info.channels then
            remove_user_from_channel_locked true s c channel
          else .done s [Action.sendResponse c false ("You are not in " ++ channel)]

/-- `broadcast_to_channel`, lock-aware (the nick/join/remove-user call
sites at lines 350/406/569 enter it lock-free; it acquires at line 521).
Every send runs under the lock; members whose writes fail are collected,
and the cleanup loop (lines 539-540) then calls `disconnect_client` while
the lock is still held, blocking at line 588 — so a broadcast with any
failing write blocks right after its sends, and the failed members are
never cleaned up. -/
def broadcast_to_channel_locked (fails : List Nat) (payload : EventPayload)
    (channel : String) (exclude : Option Nat) (s : ServerState) : LockExec :=
  match lookupA channel s.channels with
  | none => .done s []
  | some members =>
      let targets := members.filter (fun m => decide (some m ≠ exclude))
      let delivered := targets.filter (fun m => decide (m ∉ fails))
      let disconnected := targets.filter (fun m => decide (m ∈ fails))
      let outs := delivered.map (fun m => Action.sendEvent m payload)
      match disconnected with
      | [] => .done s outs
      | f :: _ =>
          match disconnect_client_locked true s f with
          | .done s2 a2 => .done s2 (outs ++ a2)
          | .blocked s2 a2 => .blocked s2 (outs ++ a2)

/-- `graceful_shutdown`, lock-aware.  It clears the running flag and
cancels the inactivity timer (lines 660-664), then takes `with self.lock:`
at line 667 — blocking forever when the caller already holds the lock, as
the inactivity path does (line 643).  Entered lock-free with clients
present, the first client receives the shutdown notice and then
`disconnect_client` (line 677) re-acquires the lock at line 588 and
blocks; only with zero clients does execution reach the listener close and
`sys.exit(0)` (lines 680-687). -/
def graceful_shutdown (locked : Bool) (s : ServerState) : LockExec :=
  if locked then .blocked s [Action.stopAccepting, Action.cancelTimer]
  else
    match s.clients.map Prod.fst with
    | [] => .done s [Action.stopAccepting, Action.cancelTimer,
                     Action.closeListener, Action.exitProcess 0]
    | c :: _ =>
        match disconnect_client_locked true s c with
        | .done s2 a2 =>
            .done s2 ([Action.stopAccepting, Action.cancelTimer,
              Action.sendResponse c true "Server is shutting down. Goodbye!"] ++ a2)
        | .blocked s2 a2 =>
            .blocked s2 ([Action.stopAccepting, Action.cancelTimer,
              Action.sendResponse c true "Server is shutting down. Goodbye!"] ++ a2)

/-- `check_inactivity`, lock-aware.  The timer thread enters lock-free and
acquires at line 643; with an empty registry it invokes
`graceful_shutdown` at line 646 with the lock still held, and with clients
present it rearms the timer and returns. -/
def check_inactivity (s : ServerState) : LockExec :=
  if s.clients.length = 0 then graceful_shutdown true s
  else .done s [Action.rearmTimer]

/-- The transitions the server performs on its shared state: accepting a
connection, a decoded JSON frame, a raw (non-JSON) line, the read-failure
disconnect of `handle_client`, and a broadcast during which the listed
writes fail.  These use the functional layer, so the transition system
over-approximates the program: paths that in reality block on a lock
re-acquisition do so before mutating the shared state, hence every
program-reachable state is also reachable here (possibly by a shorter
transition sequence), and invariants proved over `runOps` hold of the
program. -/
inductive Op where
  | accept (c : Nat)
  | frame (c : Nat) (data : JsonObj)
  | rawLine (c : Nat) (line : String)
  | readFail (c : Nat)
  | deliver (fails : List Nat) (payload : EventPayload) (channel : String)
      (exclude : Option Nat)
deriving Repr

/-- State effect of one transition. -/
def applyOp (s : ServerState) : Op → ServerState
  | .accept c => acceptClient s c
  | .frame c data => (process_client_message s c data).1
  | .rawLine c line => (process_command s c line).1
  | .readFail c => (disconnect_client s c).1
  | .deliver fails payload channel exclude =>
      (broadcast_to_channel fails payload channel exclude s).1

/-- The state reached from startup by a sequence of transitions. -/
def runOps (ops : List Op) : ServerState := ops.foldl applyOp initialState

/-- Lock and network steps, for stating the locking discipline of
`broadcast_to_channel`. -/
inductive LockAction where
  | acq
  | rel
  | netWrite (target : Nat)
deriving DecidableEq, Repr

/-- The lock/IO trace of `broadcast_to_channel` as written in the source
(no write failure): the whole body, including every `client_socket.send`,
sits inside the single `with self.lock:` block, so the trace is an acquire,
then one network write per non-excluded member, then the release. -/
def broadcastLockTrace (s : ServerState) (channel : String)
    (exclude : Option Nat) : List LockAction :=
  LockAction.acq ::
    ((match lookupA channel s.channels with
      | none => []
      | some members =>
          (members.filter (fun m => decide (some m ≠ exclude))).map LockAction.netWrite)
      ++ [LockAction.rel])

/-- Scans a trace keeping the lock depth (starting at `d`); `true` iff every
network write happens at depth 0, i.e. with the shared lock released. -/
def writesOutsideLock : List LockAction → Nat → Bool
  | [], _ => true
  | LockAction.acq :: r, d => writesOutsideLock r (d + 1)
  | LockAction.rel :: r, d => writesOutsideLock r (d - 1)
  | LockAction.netWrite _ :: r, d => decide (d = 0) && writesOutsideLock r d

/-- Scans a trace keeping the lock depth; `true` iff every network write
happens with the lock held. -/
def writesInsideLock : List LockAction → Nat → Bool
  | [], _ => true
  | LockAction.acq :: r, d => writesInsideLock r (d + 1)
  | LockAction.rel :: r, d => writesInsideLock r (d - 1)
  | LockAction.netWrite _ :: r, d => decide (0 < d) && writesInsideLock r d

/-- Invariant (a) of the spec: no two live clients share an equal non-empty
nickname. -/
abbrev NickUnique (s : ServerState) : Prop :=
  ∀ p ∈ s.clients, ∀ q ∈ s.clients,
    p.1 ≠ q.1 → p.2.nickname ≠ "" → p.2.nickname ≠ q.2.nickname

/-- The structural invariant of the shared state: duplicate-free maps and
member/channel sets, membership symmetry between registry and directory,
presence of the default channel, and non-emptiness of every other channel. -/
structure Inv (s : ServerState) : Prop where
  cnd : (s.clients.map Prod.fst).Nodup
  dnd : (s.channels.map Prod.fst).Nodup
  mnd : ∀ p ∈ s.channels, List.Nodup p.2
  ccnd : ∀ q ∈ s.clients, List.Nodup q.2.channels
  memReg : ∀ p ∈ s.channels, ∀ m ∈ p.2, m ∈ s.clients.map Prod.fst
  memChan : ∀ p ∈ s.channels, ∀ m ∈ p.2, ∀ q ∈ s.clients, q.1 = m → p.1 ∈ q.2.channels
  chanReg : ∀ q ∈ s.clients, ∀ n ∈ q.2.channels, n ∈ s.channels.map Prod.fst
  chanMem : ∀ q ∈ s.clients, ∀ n ∈ q.2.channels, ∀ p ∈ s.channels, p.1 = n → q.1 ∈ p.2
  defp : default_channel ∈ s.channels.map Prod.fst
  nde : ∀ p ∈ s.channels, p.1 ≠ default_channel → p.2 ≠ []

/-- The member set the directory stores for channel `n` (empty when the
channel is absent). -/
def membersOf (n : String) (s : ServerState) : List Nat :=
  (lookupA n s.channels).getD []

/-- Erase the elements of the second list from the first, one at a time, in
order; the shape a client's channel set takes while the leave-all loop
runs. -/
def eraseList (base : List String) : List String → List String
  | [] => base
  | x :: xs => eraseList (base.erase x) xs

/-- Two registered clients, one of which already holds the nickname `bob`. -/
def c1State : ServerState :=
  ⟨[(1, ⟨"bob", []⟩), (2, ⟨"", []⟩)], [(default_channel, [])]⟩

/-- A decoded command envelope from client 2 whose nickname field carries
the nickname client 1 already holds. -/
def c1Frame : JsonObj := ⟨some "command", some "/list", some "bob"⟩

/-- Two clients in the default channel, for the broadcast lock trace. -/
def c2State : ServerState :=
  ⟨[(1, ⟨"alice", [default_channel]⟩), (2, ⟨"bob", [default_channel]⟩)],
   [(default_channel, [1, 2])]⟩

/-- A client with the empty nickname who is already a member of `#x`, next
to another member of `#x`. -/
def c9State : ServerState :=
  ⟨[(1, ⟨"", ["#x"]⟩), (2, ⟨"bob", ["#x"]⟩)],
   [(default_channel, []), ("#x", [1, 2])]⟩

/-- Three members of `#g`, one of which will suffer a write failure. -/
def c4State : ServerState :=
  ⟨[(1, ⟨"a", ["#g"]⟩), (2, ⟨"b", ["#g"]⟩), (3, ⟨"cc", ["#g"]⟩)],
   [(default_channel, []), ("#g", [1, 2, 3])]⟩

/-- Client 1 holds `bob`; client 2 has no nickname yet. -/
def c5State : ServerState :=
  ⟨[(1, ⟨"bob", []⟩), (2, ⟨"", []⟩)], [(default_channel, [])]⟩

/-- Client 1 belongs to `#x` and `#y`; client 2 shares `#x`. -/
def c6State : ServerState :=
  ⟨[(1, ⟨"alice", ["#x", "#y"]⟩), (2, ⟨"bob", ["#x"]⟩)],
   [(default_channel, []), ("#x", [1, 2]), ("#y", [1])]⟩

/-- A renaming client (non-empty old nickname) sharing `#x` with another
member. -/
def c9WState : ServerState :=
  ⟨[(1, ⟨"bob", ["#x"]⟩), (2, ⟨"", ["#x"]⟩)],
   [(default_channel, []), ("#x", [1, 2])]⟩

section AssocLemmas

variable {α β : Type} [DecidableEq α]

theorem lookupA_mem {k : α} {v : β} {l : List (α × β)}
    (h : lookupA k l = some v) : (k, v) ∈ l := by
  induction l with
  | nil => simp [lookupA] at h
  | cons q rest ih =>
      obtain ⟨k0, v0⟩ := q
      by_cases h0 : k0 = k
      · subst h0
        simp only [lookupA, if_pos, Option.some.injEq] at h
        subst h
        exact List.mem_cons_self _ _
      · simp only [lookupA, if_neg h0] at h
        exact List.mem_cons_of_mem _ (ih h)

theorem lookupA_some_keys {k : α} {v : β} {l : List (α × β)}
    (h : lookupA k l = some v) : k ∈ l.map Prod.fst :=
  List.mem_map.mpr ⟨(k, v), lookupA_mem h, rfl⟩

theorem keys_lookupA_isSome {k : α} {l : List (α × β)}
    (h : k ∈ l.map Prod.fst) : (lookupA k l).isSome := by
  induction l with
  | nil => simp at h
  | cons q rest ih =>
      obtain ⟨k0, v0⟩ := q
      by_cases h0 : k0 = k
      · simp [lookupA, h0]
      · simp only [List.map_cons, List.mem_cons] at h
        rcases h with h | h
        · exact absurd h.symm h0
        · simpa [lookupA, h0] using ih h

theorem lookupA_none_keys {k : α} {l : List (α × β)} :
    lookupA k l = none ↔ k ∉ l.map Prod.fst := by
  constructor
  · intro h hk
    have := keys_lookupA_isSome (l := l) hk
    rw [h] at this
    simp at this
  · intro h
    cases hres : lookupA k l with
    | none => rfl
    | some v => exact absurd (lookupA_some_keys hres) h

theorem mem_lookupA {k : α} {v : β} {l : List (α × β)}
    (hnd : (l.map Prod.fst).Nodup) (h : (k, v) ∈ l) : lookupA k l = some v := by
  induction l with
  | nil => cases h
  | cons q rest ih =>
      obtain ⟨k0, v0⟩ := q
      simp only [List.map_cons, List.nodup_cons] at hnd
      rcases List.mem_cons.mp h with h | h
      · obtain ⟨h1, h2⟩ := Prod.mk.injEq .. ▸ h
        simp [lookupA, h1, h2]
      · have hk : k0 ≠ k := by
          intro he
          exact hnd.1 (he ▸ List.mem_map.mpr ⟨(k, v), h, rfl⟩)
        simp [lookupA, hk, ih hnd.2 h]

theorem lookupA_setA_self (k : α) (v : β) (l : List (α × β)) :
    lookupA k (setA k v l) = some v := by
  induction l with
  | nil => simp [setA, lookupA]
  | cons p rest ih =>
      obtain ⟨k', v'⟩ := p
      by_cases h : k' = k
      · simp [setA, h, lookupA]
      · simp [setA, h, lookupA, ih]

theorem lookupA_setA_ne (k k' : α) (v : β) (l : List (α × β)) (h : k' ≠ k) :
    lookupA k' (setA k v l) = lookupA k' l := by
  have h' : k ≠ k' := Ne.symm h
  induction l with
  | nil => simp [setA, lookupA, h']
  | cons p rest ih =>
      obtain ⟨k0, v0⟩ := p
      by_cases h0 : k0 = k
      · subst h0
        simp [setA, lookupA, h']
      · simp only [setA, if_neg h0, lookupA]
        by_cases h1 : k0 = k'
        · simp [h1]
        · simp [h1, ih]

theorem mem_setA_elim {k : α} {v : β} {l : List (α × β)} {p : α × β}
    (h : p ∈ setA k v l) : p = (k, v) ∨ p ∈ l := by
  induction l with
  | nil => simpa [setA] using h
  | cons q rest ih =>
      obtain ⟨k0, v0⟩ := q
      by_cases h0 : k0 = k
      · simp only [setA, if_pos h0, List.mem_cons] at h
        rcases h with h | h
        · exact Or.inl h
        · exact Or.inr (List.mem_cons_of_mem _ h)
      · simp only [setA, if_neg h0, List.mem_cons] at h
        rcases h with h | h
        · subst h
          exact Or.inr (List.mem_cons_self _ _)
        · rcases ih h with h' | h'
          · exact Or.inl h'
          · exact Or.inr (List.mem_cons_of_mem _ h')

theorem mem_setA_of_mem_ne {k : α} {v : β} {l : List (α × β)} {p : α × β}
    (hp : p ∈ l) (hne : p.1 ≠ k) : p ∈ setA k v l := by
  induction l with
  | nil => cases hp
  | cons q rest ih =>
      obtain ⟨k0, v0⟩ := q
      rcases List.mem_cons.mp hp with h | h
      · subst h
        by_cases h0 : k0 = k
        · exact absurd h0 hne
        · simp [setA, h0]
      · by_cases h0 : k0 = k
        · simp [setA, h0, List.mem_cons_of_mem _ h]
        · simp [setA, h0, ih h]

theorem self_mem_setA (k : α) (v : β) (l : List (α × β)) : (k, v) ∈ setA k v l := by
  induction l with
  | nil => simp [setA]
  | cons q rest ih =>
      obtain ⟨k0, v0⟩ := q
      by_cases h0 : k0 = k
      · simp [setA, h0]
      · simp only [setA, if_neg h0, List.mem_cons]
        exact Or.inr ih

theorem keys_setA_sub {k : α} {v : β} {l : List (α × β)} {k' : α}
    (h : k' ∈ (setA k v l).map Prod.fst) : k' = k ∨ k' ∈ l.map Prod.fst := by
  rcases List.mem_map.mp h with ⟨p, hp, he⟩
  rcases mem_setA_elim hp with h1 | h1
  · left
    rw [← he, h1]
  · exact Or.inr (he ▸ List.mem_map_of_mem _ h1)

theorem keys_setA_self (k : α) (v : β) (l : List (α × β)) :
    k ∈ (setA k v l).map Prod.fst :=
  List.mem_map.mpr ⟨(k, v), self_mem_setA k v l, rfl⟩

theorem keys_setA_of_mem {k : α} {v : β} {l : List (α × β)} {k' : α}
    (h : k' ∈ l.map Prod.fst) : k' ∈ (setA k v l).map Prod.fst := by
  by_cases he : k' = k
  · exact he ▸ keys_setA_self k v l
  · rcases List.mem_map.mp h with ⟨p, hp, hk⟩
    exact List.mem_map.mpr ⟨p, mem_setA_of_mem_ne hp (hk ▸ he), hk⟩

theorem keys_setA_nodup {k : α} {v : β} {l : List (α × β)}
    (h : (l.map Prod.fst).Nodup) : ((setA k v l).map Prod.fst).Nodup := by
  induction l with
  | nil => simp [setA]
  | cons q rest ih =>
      obtain ⟨k0, v0⟩ := q
      simp only [List.map_cons, List.nodup_cons] at h
      by_cases h0 : k0 = k
      · subst h0
        simpa [setA, List.nodup_cons] using h
      · simp only [setA, if_neg h0, List.map_cons, List.nodup_cons]
        refine ⟨fun hc => ?_, ih h.2⟩
        rcases keys_setA_sub hc with h1 | h1
        · exact h0 h1
        · exact h.1 h1

theorem mem_eraseA_elim {k : α} {l : List (α × β)} {p : α × β}
    (h : p ∈ eraseA k l) : p ∈ l := by
  induction l with
  | nil => simp [eraseA] at h
  | cons q rest ih =>
      obtain ⟨k0, v0⟩ := q
      by_cases h0 : k0 = k
      · simp only [eraseA, if_pos h0] at h
        exact List.mem_cons_of_mem _ h
      · simp only [eraseA, if_neg h0, List.mem_cons] at h
        rcases h with h | h
        · exact h ▸ List.mem_cons_self _ _
        · exact List.mem_cons_of_mem _ (ih h)

theorem lookupA_eraseA_ne (k k' : α) (l : List (α × β)) (h : k' ≠ k) :
    lookupA k' (eraseA k l) = lookupA k' l := by
  have h' : k ≠ k' := Ne.symm h
  induction l with
  | nil => simp [eraseA]
  | cons q rest ih =>
      obtain ⟨k0, v0⟩ := q
      by_cases h0 : k0 = k
      · subst h0
        simp [eraseA, lookupA, h']
      · simp only [eraseA, if_neg h0, lookupA]
        by_cases h1 : k0 = k'
        · simp [h1]
        · simp [h1, ih]

theorem lookupA_eraseA_self {k : α} {l : List (α × β)}
    (h : (l.map Prod.fst).Nodup) : lookupA k (eraseA k l) = none := by
  induction l with
  | nil => simp [eraseA, lookupA]
  | cons q rest ih =>
      obtain ⟨k0, v0⟩ := q
      simp only [List.map_cons, List.nodup_cons] at h
      by_cases h0 : k0 = k
      · subst h0
        simp only [eraseA, if_pos rfl]
        rw [lookupA_none_keys]
        exact h.1
      · simp [eraseA, h0, lookupA, ih h.2]

theorem keys_eraseA_nodup {k : α} {l : List (α × β)}
    (h : (l.map Prod.fst).Nodup) : ((eraseA k l).map Prod.fst).Nodup := by
  induction l with
  | nil => simp [eraseA]
  | cons q rest ih =>
      obtain ⟨k0, v0⟩ := q
      simp only [List.map_cons, List.nodup_cons] at h
      by_cases h0 : k0 = k
      · simpa [eraseA, h0] using h.2
      · simp only [eraseA, if_neg h0, List.map_cons, List.nodup_cons]
        refine ⟨fun hc => ?_, ih h.2⟩
        rcases List.mem_map.mp hc with ⟨p, hp, he⟩
        exact h.1 (he ▸ List.mem_map_of_mem _ (mem_eraseA_elim hp))

theorem lookupA_none_eraseA {k g : α} {l : List (α × β)}
    (h : lookupA k l = none) : lookupA k (eraseA g l) = none := by
  by_cases hkg : k = g
  · subst hkg
    induction l with
    | nil => simp [eraseA, lookupA]
    | cons q rest ih =>
        obtain ⟨k0, v0⟩ := q
        simp only [lookupA] at h
        by_cases h0 : k0 = k
        · simp [h0] at h
        · simp only [if_neg h0] at h
          simp [eraseA, h0, lookupA, ih h]
  · rw [lookupA_eraseA_ne _ _ _ hkg]
    exact h

theorem mem_nodup_eq {l : List (α × β)} (hnd : (l.map Prod.fst).Nodup)
    {k : α} {v v' : β} (h : (k, v) ∈ l) (h' : (k, v') ∈ l) : v = v' := by
  have e1 := mem_lookupA hnd h
  have e2 := mem_lookupA hnd h'
  rw [e1] at e2
  exact Option.some.injEq .. ▸ e2.symm ▸ rfl

theorem mem_setA_nodup_elim {k : α} {v : β} {l : List (α × β)} {p : α × β}
    (hnd : (l.map Prod.fst).Nodup) (h : p ∈ setA k v l) :
    p = (k, v) ∨ (p ∈ l ∧ p.1 ≠ k) := by
  induction l with
  | nil => simpa [setA] using h
  | cons q rest ih =>
      obtain ⟨k0, v0⟩ := q
      simp only [List.map_cons, List.nodup_cons] at hnd
      by_cases h0 : k0 = k
      · subst h0
        rw [show setA k0 v ((k0, v0) :: rest) = (k0, v) :: rest from if_pos rfl] at h
        rcases List.mem_cons.mp h with h | h
        · exact Or.inl h
        · refine Or.inr ⟨List.mem_cons_of_mem _ h, fun he => ?_⟩
          exact hnd.1 (he ▸ List.mem_map_of_mem Prod.fst h)
      · simp only [setA, if_neg h0, List.mem_cons] at h
        rcases h with h | h
        · exact Or.inr ⟨h ▸ List.mem_cons_self _ _, h ▸ h0⟩
        · rcases ih hnd.2 h with h' | h'
          · exact Or.inl h'
          · exact Or.inr ⟨List.mem_cons_of_mem _ h'.1, h'.2⟩

theorem mem_eraseA_ne {k : α} {l : List (α × β)} {p : α × β}
    (hnd : (l.map Prod.fst).Nodup) (h : p ∈ eraseA k l) : p.1 ≠ k := by
  induction l with
  | nil => simp [eraseA] at h
  | cons q rest ih =>
      obtain ⟨k0, v0⟩ := q
      simp only [List.map_cons, List.nodup_cons] at hnd
      by_cases h0 : k0 = k
      · subst h0
        rw [show eraseA k0 ((k0, v0) :: rest) = rest from if_pos rfl] at h
        intro he
        exact hnd.1 (he ▸ List.mem_map_of_mem Prod.fst h)
      · simp only [eraseA, if_neg h0, List.mem_cons] at h
        rcases h with h | h
        · subst h
          exact h0
        · exact ih hnd.2 h

theorem mem_eraseA_of_ne {k : α} {l : List (α × β)} {p : α × β}
    (hp : p ∈ l) (hne : p.1 ≠ k) : p ∈ eraseA k l := by
  induction l with
  | nil => cases hp
  | cons q rest ih =>
      obtain ⟨k0, v0⟩ := q
      rcases List.mem_cons.mp hp with h | h
      · subst h
        simp only [eraseA, if_neg hne]
        exact List.mem_cons_self _ _
      · by_cases h0 : k0 = k
        · simpa [eraseA, h0] using h
        · simp only [eraseA, if_neg h0]
          exact List.mem_cons_of_mem _ (ih h)

theorem keys_eraseA_of_ne {k k' : α} {l : List (α × β)}
    (h : k' ∈ l.map Prod.fst) (hne : k' ≠ k) : k' ∈ (eraseA k l).map Prod.fst := by
  rcases List.mem_map.mp h with ⟨p, hp, he⟩
  exact List.mem_map.mpr ⟨p, mem_eraseA_of_ne hp (he ▸ hne), he⟩

end AssocLemmas

section SetLemmas

variable {α : Type} [DecidableEq α]

theorem mem_addElem {x y : α} {l : List α} : y ∈ addElem x l ↔ y = x ∨ y ∈ l := by
  unfold addElem
  by_cases h : x ∈ l
  · simp only [if_pos h]
    constructor
    · exact Or.inr
    · rintro (rfl | hy)
      · exact h
      · exact hy
  · simp [if_neg h]

theorem self_mem_addElem (x : α) (l : List α) : x ∈ addElem x l :=
  mem_addElem.mpr (Or.inl rfl)

theorem mem_addElem_of_mem {x y : α} {l : List α} (h : y ∈ l) : y ∈ addElem x l :=
  mem_addElem.mpr (Or.inr h)

theorem addElem_nodup {x : α} {l : List α} (h : l.Nodup) : (addElem x l).Nodup := by
  unfold addElem
  by_cases hx : x ∈ l
  · simpa [if_pos hx] using h
  · simp [if_neg hx, h, hx]

theorem addElem_ne_nil (x : α) (l : List α) : addElem x l ≠ [] := by
  intro he
  have hx := self_mem_addElem x l
  rw [he] at hx
  exact absurd hx (List.not_mem_nil x)

end SetLemmas

theorem mem_broadcastDeliver {payload : EventPayload} {channel : String}
    {exclude : Option Nat} {s : ServerState} {ms : List Nat} {m : Nat}
    (hch : lookupA channel s.channels = some ms) (hm : m ∈ ms)
    (hne : some m ≠ exclude) :
    Action.sendEvent m payload ∈ broadcastDeliver payload channel exclude s := by
  unfold broadcastDeliver
  rw [hch]
  exact List.mem_map_of_mem _ (List.mem_filter.mpr ⟨hm, by simpa using hne⟩)

theorem foldAppend_acc {γ : Type} (f : γ → List Action) (L : List γ)
    (acc : List Action) {x : Action} (hx : x ∈ acc) :
    x ∈ L.foldl (fun a ch => a ++ f ch) acc := by
  induction L generalizing acc with
  | nil => exact hx
  | cons n rest ih => exact ih _ (List.mem_append_left _ hx)

theorem inv_unchanged_dir (s : ServerState) (c : Nat) (ch : String)
    (info : ClientInfo) (hInv : Inv s) (hc : lookupA c s.clients = some info)
    (hsafe : ∀ p ∈ s.channels, p.1 = ch → c ∉ p.2) :
    Inv ⟨setA c { info with channels := info.channels.erase ch } s.clients,
         s.channels⟩ := by
  have hcinfo : (c, info) ∈ s.clients := lookupA_mem hc
  refine ⟨keys_setA_nodup hInv.cnd, hInv.dnd, hInv.mnd, ?_, ?_, ?_, ?_, ?_,
    hInv.defp, hInv.nde⟩
  · intro q hq
    rcases mem_setA_nodup_elim hInv.cnd hq with he | ⟨hql, _⟩
    · subst he
      exact (hInv.ccnd _ hcinfo).erase ch
    · exact hInv.ccnd q hql
  · intro p hp m hm
    exact keys_setA_of_mem (hInv.memReg p hp m hm)
  · intro p hp m hm q hq hqm
    rcases mem_setA_nodup_elim hInv.cnd hq with he | ⟨hql, _⟩
    · subst he
      have hmc : c = m := hqm
      subst hmc
      have h1 : p.1 ∈ info.channels := hInv.memChan p hp c hm (c, info) hcinfo rfl
      have h2 : p.1 ≠ ch := fun he2 => hsafe p hp he2 hm
      exact (List.mem_erase_of_ne h2).mpr h1
    · exact hInv.memChan p hp m hm q hql hqm
  · intro q hq n hn
    rcases mem_setA_nodup_elim hInv.cnd hq with he | ⟨hql, _⟩
    · subst he
      exact hInv.chanReg (c, info) hcinfo n (List.mem_of_mem_erase hn)
    · exact hInv.chanReg q hql n hn
  · intro q hq n hn p hp hpn
    rcases mem_setA_nodup_elim hInv.cnd hq with he | ⟨hql, _⟩
    · subst he
      exact hInv.chanMem (c, info) hcinfo n (List.mem_of_mem_erase hn) p hp hpn
    · exact hInv.chanMem q hql n hn p hp hpn

theorem inv_delete_dir (s : ServerState) (c : Nat) (ch : String)
    (info : ClientInfo) (members : List Nat) (hInv : Inv s)
    (hc : lookupA c s.clients = some info)
    (hch : lookupA ch s.channels = some members)
    (hdel : members.erase c = []) (hchd : ch ≠ default_channel) :
    Inv ⟨setA c { info with channels := info.channels.erase ch } s.clients,
         eraseA ch s.channels⟩ := by
  have hcinfo : (c, info) ∈ s.clients := lookupA_mem hc
  have hchmem : (ch, members) ∈ s.channels := lookupA_mem hch
  refine ⟨keys_setA_nodup hInv.cnd, keys_eraseA_nodup hInv.dnd, ?_, ?_, ?_, ?_,
    ?_, ?_, ?_, ?_⟩
  · intro p hp
    exact hInv.mnd p (mem_eraseA_elim hp)
  · intro q hq
    rcases mem_setA_nodup_elim hInv.cnd hq with he | ⟨hql, _⟩
    · subst he
      exact (hInv.ccnd _ hcinfo).erase ch
    · exact hInv.ccnd q hql
  · intro p hp m hm
    exact keys_setA_of_mem (hInv.memReg p (mem_eraseA_elim hp) m hm)
  · intro p hp m hm q hq hqm
    have hpo : p ∈ s.channels := mem_eraseA_elim hp
    have hpch : p.1 ≠ ch := mem_eraseA_ne hInv.dnd hp
    rcases mem_setA_nodup_elim hInv.cnd hq with he | ⟨hql, _⟩
    · subst he
      have hmc : c = m := hqm
      subst hmc
      have h1 : p.1 ∈ info.channels := hInv.memChan p hpo c hm (c, info) hcinfo rfl
      exact (List.mem_erase_of_ne hpch).mpr h1
    · exact hInv.memChan p hpo m hm q hql hqm
  · intro q hq n hn
    rcases mem_setA_nodup_elim hInv.cnd hq with he | ⟨hql, hqc⟩
    · subst he
      have hnd' := hInv.ccnd (c, info) hcinfo
      have h1 : n ≠ ch ∧ n ∈ info.channels := (hnd'.mem_erase_iff).mp hn
      exact keys_eraseA_of_ne (hInv.chanReg (c, info) hcinfo n h1.2) h1.1
    · have h1 : n ∈ s.channels.map Prod.fst := hInv.chanReg q hql n hn
      have h2 : n ≠ ch := by
        intro he
        subst he
        have h3 : q.1 ∈ members := hInv.chanMem q hql _ hn (_, members) hchmem rfl
        have h4 : q.1 ∈ members.erase c := (List.mem_erase_of_ne hqc).mpr h3
        rw [hdel] at h4
        exact absurd h4 (List.not_mem_nil _)
      exact keys_eraseA_of_ne h1 h2
  · intro q hq n hn p hp hpn
    have hpo : p ∈ s.channels := mem_eraseA_elim hp
    rcases mem_setA_nodup_elim hInv.cnd hq with he | ⟨hql, _⟩
    · subst he
      exact hInv.chanMem (c, info) hcinfo n (List.mem_of_mem_erase hn) p hpo hpn
    · exact hInv.chanMem q hql n hn p hpo hpn
  · exact keys_eraseA_of_ne hInv.defp (Ne.symm hchd)
  · intro p hp
    exact hInv.nde p (mem_eraseA_elim hp)

theorem inv_shrink_dir (s : ServerState) (c : Nat) (ch : String)
    (info : ClientInfo) (members : List Nat) (hInv : Inv s)
    (hc : lookupA c s.clients = some info)
    (hch : lookupA ch s.channels = some members)
    (hkeep : ¬(members.erase c = [] ∧ ch ≠ default_channel)) :
    Inv ⟨setA c { info with channels := info.channels.erase ch } s.clients,
         setA ch (members.erase c) s.channels⟩ := by
  have hcinfo : (c, info) ∈ s.clients := lookupA_mem hc
  have hchmem : (ch, members) ∈ s.channels := lookupA_mem hch
  have hmembers_nd : members.Nodup := hInv.mnd (ch, members) hchmem
  refine ⟨keys_setA_nodup hInv.cnd, keys_setA_nodup hInv.dnd, ?_, ?_, ?_, ?_,
    ?_, ?_, ?_, ?_⟩
  · intro p hp
    rcases mem_setA_nodup_elim hInv.dnd hp with he | ⟨hpl, _⟩
    · subst he
      exact hmembers_nd.erase c
    · exact hInv.mnd p hpl
  · intro q hq
    rcases mem_setA_nodup_elim hInv.cnd hq with he | ⟨hql, _⟩
    · subst he
      exact (hInv.ccnd _ hcinfo).erase ch
    · exact hInv.ccnd q hql
  · intro p hp m hm
    rcases mem_setA_nodup_elim hInv.dnd hp with he | ⟨hpl, _⟩
    · subst he
      exact keys_setA_of_mem
        (hInv.memReg (ch, members) hchmem m (List.mem_of_mem_erase hm))
    · exact keys_setA_of_mem (hInv.memReg p hpl m hm)
  · intro p hp m hm q hq hqm
    rcases mem_setA_nodup_elim hInv.dnd hp with he | ⟨hpl, hpch⟩
    · subst he
      have h1 : m ≠ c ∧ m ∈ members := (hmembers_nd.mem_erase_iff).mp hm
      rcases mem_setA_nodup_elim hInv.cnd hq with he2 | ⟨hql, _⟩
      · subst he2
        exact absurd hqm.symm h1.1
      · exact hInv.memChan (ch, members) hchmem m h1.2 q hql hqm
    · rcases mem_setA_nodup_elim hInv.cnd hq with he2 | ⟨hql, _⟩
      · subst he2
        have hmc : c = m := hqm
        subst hmc
        have h1 : p.1 ∈ info.channels := hInv.memChan p hpl c hm (c, info) hcinfo rfl
        exact (List.mem_erase_of_ne hpch).mpr h1
      · exact hInv.memChan p hpl m hm q hql hqm
  · intro q hq n hn
    rcases mem_setA_nodup_elim hInv.cnd hq with he | ⟨hql, _⟩
    · subst he
      exact keys_setA_of_mem
        (hInv.chanReg (c, info) hcinfo n (List.mem_of_mem_erase hn))
    · exact keys_setA_of_mem (hInv.chanReg q hql n hn)
  · intro q hq n hn p hp hpn
    rcases mem_setA_nodup_elim hInv.cnd hq with he | ⟨hql, hqc⟩
    · subst he
      have hnd' := hInv.ccnd (c, info) hcinfo
      have h1 : n ≠ ch ∧ n ∈ info.channels := (hnd'.mem_erase_iff).mp hn
      rcases mem_setA_nodup_elim hInv.dnd hp with he2 | ⟨hpl, _⟩
      · rw [he2] at hpn
        exact absurd hpn.symm h1.1
      · exact hInv.chanMem (c, info) hcinfo n h1.2 p hpl hpn
    · rcases mem_setA_nodup_elim hInv.dnd hp with he2 | ⟨hpl, _⟩
      · subst he2
        have hnch : ch = n := hpn
        subst hnch
        have h1 : q.1 ∈ members := hInv.chanMem q hql ch hn (ch, members) hchmem rfl
        exact (List.mem_erase_of_ne hqc).mpr h1
      · exact hInv.chanMem q hql n hn p hpl hpn
  · exact keys_setA_of_mem hInv.defp
  · intro p hp hpd
    rcases mem_setA_nodup_elim hInv.dnd hp with he | ⟨hpl, _⟩
    · subst he
      intro hnil
      exact hkeep ⟨hnil, hpd⟩
    · exact hInv.nde p hpl hpd

theorem inv_remove_user (s : ServerState) (c : Nat) (ch : String) (hInv : Inv s) :
    Inv (remove_user_from_channel s c ch).1 := by
  cases hc : lookupA c s.clients with
  | none =>
      simp only [remove_user_from_channel, hc]
      exact hInv
  | some info =>
      cases hch : lookupA ch s.channels with
      | none =>
          have hsafe : ∀ p ∈ s.channels, p.1 = ch → c ∉ p.2 := by
            intro p hp hpch _
            exact (lookupA_none_keys.mp hch) (hpch ▸ List.mem_map_of_mem Prod.fst hp)
          simp only [remove_user_from_channel, hc, hch]
          exact inv_unchanged_dir s c ch info hInv hc hsafe
      | some members =>
          by_cases hcm : c ∈ members
          · by_cases hdel : members.erase c = [] ∧ ch ≠ default_channel
            · simp only [remove_user_from_channel, hc, hch, if_pos hcm, if_pos hdel]
              exact inv_delete_dir s c ch info members hInv hc hch hdel.1 hdel.2
            · simp only [remove_user_from_channel, hc, hch, if_pos hcm, if_neg hdel]
              exact inv_shrink_dir s c ch info members hInv hc hch hdel
          · have hsafe : ∀ p ∈ s.channels, p.1 = ch → c ∉ p.2 := by
              intro p hp hpch
              obtain ⟨pn, pm⟩ := p
              have hpm : lookupA pn s.channels = some pm := mem_lookupA hInv.dnd hp
              have hpch' : pn = ch := hpch
              rw [hpch', hch] at hpm
              have : members = pm := by injection hpm
              exact this ▸ hcm
            simp only [remove_user_from_channel, hc, hch, if_neg hcm]
            exact inv_unchanged_dir s c ch info hInv hc hsafe

theorem foldAppend_mem {γ : Type} (f : γ → List Action) (L : List γ)
    {x : Action} {n : γ} (hn : n ∈ L) (hx : x ∈ f n) :
    ∀ acc, x ∈ L.foldl (fun a ch => a ++ f ch) acc := by
  induction L with
  | nil => cases hn
  | cons m rest ih =>
      intro acc
      simp only [List.foldl_cons]
      rcases List.mem_cons.mp hn with h | h
      · exact foldAppend_acc _ _ _ (List.mem_append_right _ (h ▸ hx))
      · exact ih h _

theorem mem_broadcastDeliver_membersOf {payload : EventPayload} {ch : String}
    {exclude : Option Nat} {s : ServerState} {m : Nat}
    (hm : m ∈ membersOf ch s) (hne : some m ≠ exclude) :
    Action.sendEvent m payload ∈ broadcastDeliver payload ch exclude s := by
  unfold membersOf at hm
  cases hch : lookupA ch s.channels with
  | none =>
      rw [hch] at hm
      simp at hm
  | some ms =>
      rw [hch] at hm
      exact mem_broadcastDeliver hch (by simpa using hm) hne

theorem remove_user_clients (s : ServerState) (c : Nat) (ch : String)
    (info : ClientInfo) (hc : lookupA c s.clients = some info) :
    ((remove_user_from_channel s c ch).1).clients
      = setA c { info with channels := info.channels.erase ch } s.clients := by
  cases hch : lookupA ch s.channels with
  | none => simp [remove_user_from_channel, hc, hch]
  | some members =>
      by_cases hcm : c ∈ members
      · by_cases hdel : members.erase c = [] ∧ ch ≠ default_channel
        · simp [remove_user_from_channel, hc, hch, if_pos hcm, if_pos hdel]
        · simp [remove_user_from_channel, hc, hch, if_pos hcm, if_neg hdel]
      · simp [remove_user_from_channel, hc, hch, if_neg hcm]

theorem remove_user_lookup_self (s : ServerState) (c : Nat) (ch : String)
    (info : ClientInfo) (hc : lookupA c s.clients = some info) :
    lookupA c ((remove_user_from_channel s c ch).1).clients
      = some { info with channels := info.channels.erase ch } := by
  rw [remove_user_clients s c ch info hc]
  exact lookupA_setA_self c _ s.clients

theorem remove_user_lookup_other (s : ServerState) (c : Nat) (ch : String)
    (m : Nat) (hmc : m ≠ c) :
    lookupA m ((remove_user_from_channel s c ch).1).clients
      = lookupA m s.clients := by
  cases hc : lookupA c s.clients with
  | none => simp [remove_user_from_channel, hc]
  | some info =>
      rw [remove_user_clients s c ch info hc]
      exact lookupA_setA_ne c m _ s.clients hmc

theorem remove_user_channels_missing (s : ServerState) (c : Nat) (ch : String)
    (info : ClientInfo) (hc : lookupA c s.clients = some info)
    (hch : lookupA ch s.channels = none) :
    ((remove_user_from_channel s c ch).1).channels = s.channels := by
  simp [remove_user_from_channel, hc, hch]

theorem remove_user_channels_nomem (s : ServerState) (c : Nat) (ch : String)
    (info : ClientInfo) (members : List Nat) (hc : lookupA c s.clients = some info)
    (hch : lookupA ch s.channels = some members) (hcm : c ∉ members) :
    ((remove_user_from_channel s c ch).1).channels = s.channels := by
  simp [remove_user_from_channel, hc, hch, if_neg hcm]

theorem remove_user_channels_del (s : ServerState) (c : Nat) (ch : String)
    (info : ClientInfo) (members : List Nat) (hc : lookupA c s.clients = some info)
    (hch : lookupA ch s.channels = some members) (hcm : c ∈ members)
    (hdel : members.erase c = [] ∧ ch ≠ default_channel) :
    ((remove_user_from_channel s c ch).1).channels = eraseA ch s.channels := by
  simp only [remove_user_from_channel, hc, hch, if_pos hcm, if_pos hdel]

theorem remove_user_channels_set (s : ServerState) (c : Nat) (ch : String)
    (info : ClientInfo) (members : List Nat) (hc : lookupA c s.clients = some info)
    (hch : lookupA ch s.channels = some members) (hcm : c ∈ members)
    (hdel : ¬(members.erase c = [] ∧ ch ≠ default_channel)) :
    ((remove_user_from_channel s c ch).1).channels
      = setA ch (members.erase c) s.channels := by
  simp only [remove_user_from_channel, hc, hch, if_pos hcm, if_neg hdel]

theorem remove_user_membersOf_other (s : ServerState) (c : Nat) (ch n : String)
    (m : Nat) (hInv : Inv s) (hmc : m ≠ c) :
    m ∈ membersOf n (remove_user_from_channel s c ch).1 ↔ m ∈ membersOf n s := by
  cases hc : lookupA c s.clients with
  | none => simp [remove_user_from_channel, hc]
  | some info =>
      cases hch : lookupA ch s.channels with
      | none => rw [membersOf, remove_user_channels_missing s c ch info hc hch, membersOf]
      | some members =>
          by_cases hcm : c ∈ members
          · by_cases hdel : members.erase c = [] ∧ ch ≠ default_channel
            · rw [membersOf, remove_user_channels_del s c ch info members hc hch hcm hdel,
                membersOf]
              by_cases hn : n = ch
              · subst hn
                rw [lookupA_eraseA_self hInv.dnd, hch]
                simp only [Option.getD_none, Option.getD_some, List.not_mem_nil,
                  false_iff]
                intro h
                have h2 : m ∈ members.erase c := (List.mem_erase_of_ne hmc).mpr h
                rw [hdel.1] at h2
                exact absurd h2 (List.not_mem_nil _)
              · rw [lookupA_eraseA_ne ch n s.channels hn]
            · rw [membersOf, remove_user_channels_set s c ch info members hc hch hcm hdel,
                membersOf]
              by_cases hn : n = ch
              · subst hn
                rw [lookupA_setA_self, hch]
                simp only [Option.getD_some]
                exact List.mem_erase_of_ne hmc
              · rw [lookupA_setA_ne ch n _ s.channels hn]
          · rw [membersOf,
              remove_user_channels_nomem s c ch info members hc hch hcm, membersOf]

theorem remove_user_acts (s : ServerState) (c : Nat) (ch : String)
    (info : ClientInfo) (hc : lookupA c s.clients = some info) :
    (remove_user_from_channel s c ch).2
      = Action.sendResponse c true ("Left channel " ++ ch) ::
          broadcastDeliver (.user_left (orUnknown info.nickname) ch) ch none
            (remove_user_from_channel s c ch).1 := by
  cases hch : lookupA ch s.channels with
  | none => simp only [remove_user_from_channel, hc, hch]
  | some members =>
      by_cases hcm : c ∈ members
      · by_cases hdel : members.erase c = [] ∧ ch ≠ default_channel
        · simp only [remove_user_from_channel, hc, hch, if_pos hcm, if_pos hdel]
        · simp only [remove_user_from_channel, hc, hch, if_pos hcm, if_neg hdel]
      · simp only [remove_user_from_channel, hc, hch, if_neg hcm]

theorem eraseList_self {l : List String} (h : l.Nodup) : eraseList l l = [] := by
  induction l with
  | nil => rfl
  | cons a t ih =>
      simp only [List.nodup_cons] at h
      show eraseList ((a :: t).erase a) t = []
      rw [List.erase_cons_head]
      exact ih h.2

theorem inv_remove_from_each (c : Nat) (L : List String) :
    ∀ s : ServerState, Inv s → Inv (remove_from_each s c L).1 := by
  induction L with
  | nil => exact fun s hInv => hInv
  | cons ch rest ih =>
      intro s hInv
      exact ih _ (inv_remove_user s c ch hInv)

theorem remove_from_each_lookup_other (c : Nat) (L : List String) :
    ∀ (s : ServerState) (m : Nat), m ≠ c →
      lookupA m ((remove_from_each s c L).1).clients = lookupA m s.clients := by
  induction L with
  | nil => exact fun s m _ => rfl
  | cons ch rest ih =>
      intro s m hmc
      show lookupA m ((remove_from_each (remove_user_from_channel s c ch).1 c rest).1).clients
        = lookupA m s.clients
      rw [ih _ m hmc, remove_user_lookup_other s c ch m hmc]

theorem remove_from_each_spec (c : Nat) (L : List String) :
    ∀ (s : ServerState) (info : ClientInfo), Inv s →
      lookupA c s.clients = some info →
      lookupA c ((remove_from_each s c L).1).clients
          = some ⟨info.nickname, eraseList info.channels L⟩ ∧
      (∀ n ∈ L, Action.sendResponse c true ("Left channel " ++ n)
          ∈ (remove_from_each s c L).2) ∧
      (∀ n ∈ L, ∀ m : Nat, m ≠ c → m ∈ membersOf n s →
          Action.sendEvent m (.user_left (orUnknown info.nickname) n)
            ∈ (remove_from_each s c L).2) := by
  induction L with
  | nil =>
      intro s info hInv hc
      refine ⟨?_, ?_, ?_⟩
      · exact hc
      · intro n hn
        cases hn
      · intro n hn
        cases hn
  | cons ch rest ih =>
      intro s info hInv hc
      have hInv1 : Inv (remove_user_from_channel s c ch).1 := inv_remove_user s c ch hInv
      have hc1 : lookupA c ((remove_user_from_channel s c ch).1).clients
          = some { info with channels := info.channels.erase ch } :=
        remove_user_lookup_self s c ch info hc
      obtain ⟨ihl, ihresp, ihev⟩ := ih (remove_user_from_channel s c ch).1
        { info with channels := info.channels.erase ch } hInv1 hc1
      have hacts : (remove_from_each s c (ch :: rest)).2
          = (remove_user_from_channel s c ch).2
            ++ (remove_from_each (remove_user_from_channel s c ch).1 c rest).2 := rfl
      have hstate : (remove_from_each s c (ch :: rest)).1
          = (remove_from_each (remove_user_from_channel s c ch).1 c rest).1 := rfl
      refine ⟨?_, ?_, ?_⟩
      · rw [hstate]
        exact ihl
      · intro n hn
        rw [hacts]
        rcases List.mem_cons.mp hn with h | h
        · subst h
          apply List.mem_append_left
          rw [remove_user_acts s c n info hc]
          exact List.mem_cons_self _ _
        · exact List.mem_append_right _ (ihresp n h)
      · intro n hn m hmc hms
        rw [hacts]
        rcases List.mem_cons.mp hn with h | h
        · subst h
          apply List.mem_append_left
          rw [remove_user_acts s c n info hc]
          apply List.mem_cons_of_mem
          refine mem_broadcastDeliver_membersOf ?_ (by simp)
          exact (remove_user_membersOf_other s c n n m hInv hmc).mpr hms
        · apply List.mem_append_right
          have hms1 : m ∈ membersOf n (remove_user_from_channel s c ch).1 :=
            (remove_user_membersOf_other s c ch n m hInv hmc).mpr hms
          exact ihev n h m hmc hms1

theorem not_member_of_unregistered (s : ServerState) (hInv : Inv s) (c : Nat)
    (hc : lookupA c s.clients = none) : ∀ p ∈ s.channels, c ∉ p.2 :=
  fun p hp hm => (lookupA_none_keys.mp hc) (hInv.memReg p hp c hm)

theorem inv_disconnect (s : ServerState) (c : Nat) (hInv : Inv s) :
    Inv (disconnect_client s c).1 ∧
    lookupA c ((disconnect_client s c).1).clients = none := by
  cases hc : lookupA c s.clients with
  | none =>
      constructor
      · simp only [disconnect_client, hc]
        exact hInv
      · simp only [disconnect_client, hc]
  | some info =>
      have hInvr : Inv (remove_from_each s c info.channels).1 :=
        inv_remove_from_each c info.channels s hInv
      have hcr : lookupA c ((remove_from_each s c info.channels).1).clients
          = some ⟨info.nickname, []⟩ := by
        have h1 := (remove_from_each_spec c info.channels s info hInv hc).1
        rwa [eraseList_self (hInv.ccnd (c, info) (lookupA_mem hc))] at h1
      have hstate : (disconnect_client s c).1
          = ⟨eraseA c ((remove_from_each s c info.channels).1).clients,
             ((remove_from_each s c info.channels).1).channels⟩ := by
        simp only [disconnect_client, hc]
      rw [hstate]
      constructor
      · refine ⟨keys_eraseA_nodup hInvr.cnd, hInvr.dnd, hInvr.mnd, ?_, ?_, ?_, ?_,
          ?_, hInvr.defp, hInvr.nde⟩
        · intro q hq
          exact hInvr.ccnd q (mem_eraseA_elim hq)
        · intro p hp m hm
          have hmk := hInvr.memReg p hp m hm
          have hmc : m ≠ c := by
            intro he
            subst he
            have h2 : p.1 ∈ (⟨info.nickname, []⟩ : ClientInfo).channels :=
              hInvr.memChan p hp m hm (m, ⟨info.nickname, []⟩) (lookupA_mem hcr) rfl
            exact absurd h2 (List.not_mem_nil _)
          exact keys_eraseA_of_ne hmk hmc
        · intro p hp m hm q hq hqm
          exact hInvr.memChan p hp m hm q (mem_eraseA_elim hq) hqm
        · intro q hq n hn
          exact hInvr.chanReg q (mem_eraseA_elim hq) n hn
        · intro q hq n hn p hp hpn
          exact hInvr.chanMem q (mem_eraseA_elim hq) n hn p hp hpn
      · exact lookupA_eraseA_self hInvr.cnd

theorem disconnect_lookup_other (s : ServerState) (c m : Nat) (hmc : m ≠ c) :
    lookupA m ((disconnect_client s c).1).clients = lookupA m s.clients := by
  cases hc : lookupA c s.clients with
  | none => simp only [disconnect_client, hc]
  | some info =>
      simp only [disconnect_client, hc]
      rw [lookupA_eraseA_ne c m _ hmc]
      exact remove_from_each_lookup_other c info.channels s m hmc

theorem disconnect_preserves_none (s : ServerState) (c f : Nat)
    (hf : lookupA f s.clients = none) :
    lookupA f ((disconnect_client s c).1).clients = none := by
  by_cases hfc : f = c
  · subst hfc
    simp only [disconnect_client, hf]
  · rw [disconnect_lookup_other s c f hfc]
    exact hf

theorem closeConn_mem_disconnect (s : ServerState) (c : Nat)
    (hreg : c ∈ s.clients.map Prod.fst) :
    Action.closeConn c ∈ (disconnect_client s c).2 := by
  obtain ⟨vi, hvi⟩ := Option.isSome_iff_exists.mp (keys_lookupA_isSome hreg)
  simp only [disconnect_client, hvi]
  exact List.mem_append_right _ (List.mem_cons_self _ _)

theorem disconnect_each_spec (L : List Nat) :
    ∀ s : ServerState, Inv s →
      Inv (disconnect_each s L).1 ∧
      (∀ f, lookupA f s.clients = none →
          lookupA f ((disconnect_each s L).1).clients = none) ∧
      (∀ f ∈ L, lookupA f ((disconnect_each s L).1).clients = none) ∧
      (∀ f ∈ L, f ∈ s.clients.map Prod.fst →
          Action.closeConn f ∈ (disconnect_each s L).2) := by
  induction L with
  | nil =>
      intro s hInv
      refine ⟨hInv, fun f hf => hf, ?_, ?_⟩
      · intro f hf
        cases hf
      · intro f hf
        cases hf
  | cons g rest ih =>
      intro s hInv
      have hInv1 := (inv_disconnect s g hInv).1
      obtain ⟨iInv, iNone, iAll, iClose⟩ := ih (disconnect_client s g).1 hInv1
      have hstate : (disconnect_each s (g :: rest)).1
          = (disconnect_each (disconnect_client s g).1 rest).1 := rfl
      have hacts : (disconnect_each s (g :: rest)).2
          = (disconnect_client s g).2
            ++ (disconnect_each (disconnect_client s g).1 rest).2 := rfl
      refine ⟨hstate ▸ iInv, ?_, ?_, ?_⟩
      · intro f hf
        rw [hstate]
        exact iNone f (disconnect_preserves_none s g f hf)
      · intro f hf
        rw [hstate]
        rcases List.mem_cons.mp hf with h | h
        · subst h
          exact iNone f (inv_disconnect s f hInv).2
        · exact iAll f h
      · intro f hf hreg
        rw [hacts]
        by_cases hfg : f = g
        · subst hfg
          exact List.mem_append_left _ (closeConn_mem_disconnect s f hreg)
        · rcases List.mem_cons.mp hf with h | h
          · exact absurd h hfg
          · apply List.mem_append_right
            apply iClose f h
            obtain ⟨vi, hvi⟩ := Option.isSome_iff_exists.mp (keys_lookupA_isSome hreg)
            have h2 : lookupA f ((disconnect_client s g).1).clients = some vi := by
              rw [disconnect_lookup_other s g f hfg]
              exact hvi
            exact lookupA_some_keys h2

theorem inv_broadcast (fails : List Nat) (payload : EventPayload) (channel : String)
    (exclude : Option Nat) (s : ServerState) (hInv : Inv s) :
    Inv (broadcast_to_channel fails payload channel exclude s).1 := by
  cases hch : lookupA channel s.channels with
  | none =>
      simp only [broadcast_to_channel, hch]
      exact hInv
  | some members =>
      simp only [broadcast_to_channel, hch]
      exact (disconnect_each_spec _ s hInv).1

theorem inv_set_nickname (s : ServerState) (c : Nat) (info : ClientInfo)
    (nick : String) (hInv : Inv s) (hc : lookupA c s.clients = some info) :
    Inv ⟨setA c { info with nickname := nick } s.clients, s.channels⟩ := by
  have hcinfo := lookupA_mem hc
  refine ⟨keys_setA_nodup hInv.cnd, hInv.dnd, hInv.mnd, ?_, ?_, ?_, ?_, ?_,
    hInv.defp, hInv.nde⟩
  · intro q hq
    rcases mem_setA_nodup_elim hInv.cnd hq with he | ⟨hql, _⟩
    · subst he
      exact hInv.ccnd (c, info) hcinfo
    · exact hInv.ccnd q hql
  · intro p hp m hm
    exact keys_setA_of_mem (hInv.memReg p hp m hm)
  · intro p hp m hm q hq hqm
    rcases mem_setA_nodup_elim hInv.cnd hq with he | ⟨hql, _⟩
    · subst he
      have hcm : c = m := hqm
      subst hcm
      exact hInv.memChan p hp c hm (c, info) hcinfo rfl
    · exact hInv.memChan p hp m hm q hql hqm
  · intro q hq n hn
    rcases mem_setA_nodup_elim hInv.cnd hq with he | ⟨hql, _⟩
    · subst he
      exact hInv.chanReg (c, info) hcinfo n hn
    · exact hInv.chanReg q hql n hn
  · intro q hq n hn p hp hpn
    rcases mem_setA_nodup_elim hInv.cnd hq with he | ⟨hql, _⟩
    · subst he
      exact hInv.chanMem (c, info) hcinfo n hn p hp hpn
    · exact hInv.chanMem q hql n hn p hp hpn

theorem inv_handle_nick (s : ServerState) (c : Nat) (args : List String)
    (hInv : Inv s) : Inv (handle_nick_command s c args).1 := by
  cases args with
  | nil =>
      simp only [handle_nick_command]
      exact hInv
  | cons name rest =>
      by_cases hlen : name.length > 32
      · simp only [handle_nick_command, if_pos hlen]
        exact hInv
      · by_cases hconf : ∃ q ∈ s.clients, q.1 ≠ c ∧ q.2.nickname = name
        · simp only [handle_nick_command, if_neg hlen, dif_pos hconf]
          exact hInv
        · cases hc : lookupA c s.clients with
          | none =>
              simp only [handle_nick_command, if_neg hlen, dif_neg hconf, hc]
              exact hInv
          | some info =>
              simp only [handle_nick_command, if_neg hlen, dif_neg hconf, hc]
              exact inv_set_nickname s c info name hInv hc

theorem inv_join_core (s : ServerState) (c : Nat) (channel : String)
    (info : ClientInfo) (hInv : Inv s) (hc : lookupA c s.clients = some info) :
    Inv ⟨setA c { info with channels := addElem channel info.channels } s.clients,
         setA channel (addElem c ((lookupA channel s.channels).getD [])) s.channels⟩ := by
  have hcinfo := lookupA_mem hc
  have hmem_spec : ∀ m : Nat, m ∈ (lookupA channel s.channels).getD [] →
      (channel, (lookupA channel s.channels).getD []) ∈ s.channels := by
    intro m hm
    cases hch : lookupA channel s.channels with
    | none =>
        rw [hch] at hm
        cases hm
    | some ms => exact lookupA_mem hch
  have hmnd : ((lookupA channel s.channels).getD []).Nodup := by
    cases hch : lookupA channel s.channels with
    | none => exact List.nodup_nil
    | some ms =>
        simp only [Option.getD_some]
        exact hInv.mnd (channel, ms) (lookupA_mem hch)
  refine ⟨keys_setA_nodup hInv.cnd, keys_setA_nodup hInv.dnd, ?_, ?_, ?_, ?_, ?_,
    ?_, keys_setA_of_mem hInv.defp, ?_⟩
  · intro p hp
    rcases mem_setA_nodup_elim hInv.dnd hp with he | ⟨hpl, _⟩
    · subst he
      exact addElem_nodup hmnd
    · exact hInv.mnd p hpl
  · intro q hq
    rcases mem_setA_nodup_elim hInv.cnd hq with he | ⟨hql, _⟩
    · subst he
      exact addElem_nodup (hInv.ccnd (c, info) hcinfo)
    · exact hInv.ccnd q hql
  · intro p hp m hm
    rcases mem_setA_nodup_elim hInv.dnd hp with he | ⟨hpl, _⟩
    · subst he
      rcases mem_addElem.mp hm with he2 | he2
      · exact he2 ▸ keys_setA_self c _ s.clients
      · exact keys_setA_of_mem (hInv.memReg _ (hmem_spec m he2) m he2)
    · exact keys_setA_of_mem (hInv.memReg p hpl m hm)
  · intro p hp m hm q hq hqm
    rcases mem_setA_nodup_elim hInv.cnd hq with hqe | ⟨hql, hqc⟩
    · subst hqe
      have hcm : c = m := hqm
      subst hcm
      rcases mem_setA_nodup_elim hInv.dnd hp with hpe | ⟨hpl, hpc⟩
      · rw [hpe]
        exact self_mem_addElem channel info.channels
      · have h2 : p.1 ∈ info.channels :=
          hInv.memChan p hpl c hm (c, info) hcinfo rfl
        exact mem_addElem_of_mem h2
    · rcases mem_setA_nodup_elim hInv.dnd hp with hpe | ⟨hpl, hpc⟩
      · subst hpe
        rcases mem_addElem.mp hm with he2 | he2
        · exact absurd (hqm.trans he2) hqc
        · exact hInv.memChan _ (hmem_spec m he2) m he2 q hql hqm
      · exact hInv.memChan p hpl m hm q hql hqm
  · intro q hq n hn
    rcases mem_setA_nodup_elim hInv.cnd hq with he | ⟨hql, _⟩
    · subst he
      rcases mem_addElem.mp hn with he2 | he2
      · exact he2 ▸ keys_setA_self channel _ s.channels
      · exact keys_setA_of_mem (hInv.chanReg (c, info) hcinfo n he2)
    · exact keys_setA_of_mem (hInv.chanReg q hql n hn)
  · intro q hq n hn p hp hpn
    rcases mem_setA_nodup_elim hInv.cnd hq with hqe | ⟨hql, hqc⟩
    · subst hqe
      rcases mem_setA_nodup_elim hInv.dnd hp with hpe | ⟨hpl, hpc⟩
      · subst hpe
        exact self_mem_addElem c _
      · rcases mem_addElem.mp hn with he2 | he2
        · exact absurd (hpn.trans he2) hpc
        · exact hInv.chanMem (c, info) hcinfo n he2 p hpl hpn
    · rcases mem_setA_nodup_elim hInv.dnd hp with hpe | ⟨hpl, hpc⟩
      · subst hpe
        have hpn' : channel = n := hpn
        subst hpn'
        cases hch : lookupA channel s.channels with
        | none =>
            exact absurd (hInv.chanReg q hql channel hn) (lookupA_none_keys.mp hch)
        | some ms =>
            have h2 : q.1 ∈ ms :=
              hInv.chanMem q hql channel hn (channel, ms) (lookupA_mem hch) rfl
            exact mem_addElem_of_mem h2
      · exact hInv.chanMem q hql n hn p hpl hpn
  · intro p hp hpd
    rcases mem_setA_nodup_elim hInv.dnd hp with he | ⟨hpl, _⟩
    · subst he
      exact addElem_ne_nil c _
    · exact hInv.nde p hpl hpd

theorem inv_handle_join (s : ServerState) (c : Nat) (args : List String)
    (hInv : Inv s) : Inv (handle_join_command s c args).1 := by
  cases hc : lookupA c s.clients with
  | none =>
      simp only [handle_join_command, hc]
      exact hInv
  | some info =>
      by_cases hmem : (match args with
          | [] => default_channel
          | a :: _ => if pyStartsWith a (Char.ofNat 35) then a else "#" ++ a) ∈ info.channels
      · simp only [handle_join_command, hc, if_pos hmem]
        exact hInv
      · simp only [handle_join_command, hc, if_neg hmem]
        exact inv_join_core s c _ info hInv hc

theorem inv_handle_leave (s : ServerState) (c : Nat) (args : List String)
    (hInv : Inv s) : Inv (handle_leave_command s c args).1 := by
  cases hc : lookupA c s.clients with
  | none =>
      simp only [handle_leave_command, hc]
      exact hInv
  | some info =>
      cases args with
      | nil =>
          simp only [handle_leave_command, hc]
          exact inv_remove_from_each c info.channels s hInv
      | cons a rest =>
          by_cases hmem : (if pyStartsWith a (Char.ofNat 35) then a else "#" ++ a) ∈ info.channels
          · simp only [handle_leave_command, hc, if_pos hmem]
            exact inv_remove_user s c _ hInv
          · simp only [handle_leave_command, hc, if_neg hmem]
            exact hInv

theorem inv_handle_quit (s : ServerState) (c : Nat) (hInv : Inv s) :
    Inv (handle_quit_command s c).1 :=
  (inv_disconnect s c hInv).1

theorem chat_state (s : ServerState) (c : Nat) (text : String) :
    (handle_chat_message s c text).1 = s := by
  cases hc : lookupA c s.clients with
  | none => simp only [handle_chat_message, hc]
  | some info =>
      by_cases h1 : info.nickname = ""
      · simp only [handle_chat_message, hc, if_pos h1]
      · by_cases h2 : info.channels = []
        · simp only [handle_chat_message, hc, if_neg h1, if_pos h2]
        · simp only [handle_chat_message, hc, if_neg h1, if_neg h2]

theorem inv_process_command (s : ServerState) (c : Nat) (command : String)
    (hInv : Inv s) : Inv (process_command s c command).1 := by
  by_cases hreg : (lookupA c s.clients).isSome
  · by_cases hsl : pyStartsWith command (Char.ofNat 47)
    · cases hsplit : pySplit (pyDrop1 command) with
      | nil =>
          simp only [process_command, if_pos hreg, if_pos hsl, hsplit]
          exact hInv
      | cons w args =>
          simp only [process_command, if_pos hreg, if_pos hsl, hsplit]
          by_cases h1 : pyLower w = "nick"
          · rw [if_pos h1]
            exact inv_handle_nick s c args hInv
          · rw [if_neg h1]
            by_cases h2 : pyLower w = "list"
            · rw [if_pos h2]
              exact hInv
            · rw [if_neg h2]
              by_cases h3 : pyLower w = "join"
              · rw [if_pos h3]
                exact inv_handle_join s c args hInv
              · rw [if_neg h3]
                by_cases h4 : pyLower w = "leave"
                · rw [if_pos h4]
                  exact inv_handle_leave s c args hInv
                · rw [if_neg h4]
                  by_cases h5 : pyLower w = "quit"
                  · rw [if_pos h5]
                    exact inv_handle_quit s c hInv
                  · rw [if_neg h5]
                    by_cases h6 : pyLower w = "help"
                    · rw [if_pos h6]
                      exact hInv
                    · rw [if_neg h6]
                      exact hInv
    · simp only [process_command, if_pos hreg, if_neg hsl]
      rw [show Inv (handle_chat_message s c command).1 = Inv s from
        congrArg Inv (chat_state s c command)]
      exact hInv
  · simp only [process_command, if_neg hreg]
    exact hInv

theorem inv_process_client_message (s : ServerState) (c : Nat) (data : JsonObj)
    (hInv : Inv s) : Inv (process_client_message s c data).1 := by
  by_cases ht : data.type = some "command"
  · cases hc : lookupA c s.clients with
    | none =>
        simp only [process_client_message, if_pos ht, hc]
        exact inv_process_command s c _ hInv
    | some info =>
        by_cases hn : data.nickname.getD "" ≠ ""
        · simp only [process_client_message, if_pos ht, hc, if_pos hn]
          exact inv_process_command _ c _ (inv_set_nickname s c info _ hInv hc)
        · simp only [process_client_message, if_pos ht, hc, if_neg hn]
          exact inv_process_command s c _ hInv
  · simp only [process_client_message, if_neg ht]
    exact hInv

theorem inv_accept (s : ServerState) (c : Nat) (hInv : Inv s) :
    Inv (acceptClient s c) := by
  unfold acceptClient
  by_cases hreg : (lookupA c s.clients).isSome
  · rw [if_pos hreg]
    exact hInv
  · rw [if_neg hreg]
    have hc : lookupA c s.clients = none := by
      cases h : lookupA c s.clients with
      | none => rfl
      | some v =>
          rw [h] at hreg
          simp at hreg
    have hck : c ∉ s.clients.map Prod.fst := lookupA_none_keys.mp hc
    refine ⟨keys_setA_nodup hInv.cnd, hInv.dnd, hInv.mnd, ?_, ?_, ?_, ?_, ?_,
      hInv.defp, hInv.nde⟩
    · intro q hq
      rcases mem_setA_nodup_elim hInv.cnd hq with he | ⟨hql, _⟩
      · subst he
        exact List.nodup_nil
      · exact hInv.ccnd q hql
    · intro p hp m hm
      exact keys_setA_of_mem (hInv.memReg p hp m hm)
    · intro p hp m hm q hq hqm
      rcases mem_setA_nodup_elim hInv.cnd hq with he | ⟨hql, _⟩
      · subst he
        have hcm : c = m := hqm
        subst hcm
        exact absurd (hInv.memReg p hp c hm) hck
      · exact hInv.memChan p hp m hm q hql hqm
    · intro q hq n hn
      rcases mem_setA_nodup_elim hInv.cnd hq with he | ⟨hql, _⟩
      · subst he
        cases hn
      · exact hInv.chanReg q hql n hn
    · intro q hq n hn p hp hpn
      rcases mem_setA_nodup_elim hInv.cnd hq with he | ⟨hql, _⟩
      · subst he
        cases hn
      · exact hInv.chanMem q hql n hn p hp hpn

theorem inv_initial : Inv initialState := by
  refine ⟨?_, ?_, ?_, ?_, ?_, ?_, ?_, ?_, ?_, ?_⟩ <;> decide

theorem inv_applyOp (s : ServerState) (op : Op) (hInv : Inv s) :
    Inv (applyOp s op) := by
  cases op with
  | accept c => exact inv_accept s c hInv
  | frame c data => exact inv_process_client_message s c data hInv
  | rawLine c line => exact inv_process_command s c line hInv
  | readFail c => exact (inv_disconnect s c hInv).1
  | deliver fails payload channel exclude =>
      exact inv_broadcast fails payload channel exclude s hInv

theorem inv_foldOps (ops : List Op) :
    ∀ s : ServerState, Inv s → Inv (ops.foldl applyOp s) := by
  induction ops with
  | nil => exact fun s h => h
  | cons op rest ih => exact fun s h => ih _ (inv_applyOp s op h)

theorem inv_runOps (ops : List Op) : Inv (runOps ops) :=
  inv_foldOps ops initialState inv_initial

/-- Claim C10: for every frame that decodes as a JSON object whose type
field is absent or not equal to the string command, the server sends no
response or event and leaves the registry and directory unchanged — the
frame is silently dropped. -/
theorem non_command_frame_dropped (s : ServerState) (c : Nat) (data : JsonObj)
    (ht : data.type ≠ some "command") :
    process_client_message s c data = (s, []) := by
  simp only [process_client_message, if_neg ht]

/-- Witness for C10: a frame carrying a command string but no type field is
dropped without touching the initial state. -/
theorem non_command_frame_dropped_witness :
    process_client_message initialState 1 ⟨none, some "/list", none⟩
      = (initialState, []) :=
  non_command_frame_dropped initialState 1 ⟨none, some "/list", none⟩ (by decide)

/-- Claim C8 (code bug in the source): the inactivity window is 180
seconds, and a non-empty registry at the deadline does rearm the timer;
but when the deadline fires with an empty registry the shutdown blocks
forever on the lock re-acquisition inside `graceful_shutdown` (the timer
callback holds the lock from line 643 when line 667 re-acquires it), right
after stopping acceptance and cancelling the timer — the listening socket
is never closed and `sys.exit(0)` never runs, so the process hangs instead
of exiting with status 0. -/
theorem inactivity_shutdown_deadlocks :
    inactivitySeconds = 180 ∧
    check_inactivity ⟨[], [(default_channel, [])]⟩
      = LockExec.blocked ⟨[], [(default_channel, [])]⟩
          [Action.stopAccepting, Action.cancelTimer] ∧
    check_inactivity ⟨[(1, ⟨"", []⟩)], [(default_channel, [])]⟩
      = LockExec.done ⟨[(1, ⟨"", []⟩)], [(default_channel, [])]⟩
          [Action.rearmTimer] := by
  exact ⟨rfl, by decide, by decide⟩

/-- Claim C5: a nick command naming a nickname exactly held by another live
connection is answered with an error response and leaves the whole state —
in particular the requesting client's nickname — unchanged. -/
theorem nick_conflict_rejected (s : ServerState) (c : Nat) (name : String)
    (rest : List String)
    (h : ∃ q ∈ s.clients, q.1 ≠ c ∧ q.2.nickname = name) :
    (handle_nick_command s c (name :: rest)).1 = s ∧
    ∃ msg : String,
      (handle_nick_command s c (name :: rest)).2
        = [Action.sendResponse c false msg] := by
  by_cases hlen : name.length > 32
  · have he : handle_nick_command s c (name :: rest)
        = (s, [Action.sendResponse c false
            "Nickname too long (max 32 characters)"]) := by
      simp only [handle_nick_command, if_pos hlen]
    rw [he]
    exact ⟨rfl, _, rfl⟩
  · have he : handle_nick_command s c (name :: rest)
        = (s, [Action.sendResponse c false
            ("Nickname " ++ squote name ++ " is already in use")]) := by
      simp only [handle_nick_command, if_neg hlen, dif_pos h]
    rw [he]
    exact ⟨rfl, _, rfl⟩

/-- Witness for C5: client 2 (no nickname) asks for bob while client 1
holds it. -/
theorem nick_conflict_rejected_witness :
    (handle_nick_command c5State 2 ["bob"]).1 = c5State ∧
    ∃ msg : String,
      (handle_nick_command c5State 2 ["bob"]).2
        = [Action.sendResponse 2 false msg] :=
  nick_conflict_rejected c5State 2 "bob" []
    ⟨(1, ⟨"bob", []⟩), by decide, by decide, rfl⟩

/-- Counterexample to claim C1: at a state where client 1 holds bob and
client 2 has no nickname, processing a decoded command envelope from client
2 whose nickname field is bob sets it with no uniqueness check, so the
uniqueness invariant does not survive envelope processing. -/
theorem envelope_nick_breaks_uniqueness :
    NickUnique c1State ∧
    ¬ NickUnique (process_client_message c1State 2 c1Frame).1 := by
  exact ⟨by decide, by decide⟩

/-- Claim C1 as amended: the nick command handler preserves nickname
uniqueness (the envelope path of process_client_message does not). -/
theorem nick_handler_preserves_uniqueness (s : ServerState) (c : Nat)
    (args : List String) (h : NickUnique s) :
    NickUnique (handle_nick_command s c args).1 := by
  cases args with
  | nil => exact h
  | cons name rest =>
      by_cases hlen : name.length > 32
      · simp only [handle_nick_command, if_pos hlen]
        exact h
      · by_cases hconf : ∃ q ∈ s.clients, q.1 ≠ c ∧ q.2.nickname = name
        · simp only [handle_nick_command, if_neg hlen, dif_pos hconf]
          exact h
        · cases hc : lookupA c s.clients with
          | none =>
              simp only [handle_nick_command, if_neg hlen, dif_neg hconf, hc]
              exact h
          | some info =>
              simp only [handle_nick_command, if_neg hlen, dif_neg hconf, hc]
              push_neg at hconf
              intro p hp q hq hne hpnick
              rcases mem_setA_elim hp with hpe | hpl
              · rcases mem_setA_elim hq with hqe | hql
                · rw [hpe, hqe] at hne
                  exact absurd rfl hne
                · have hq1 : q.1 ≠ c := by
                    rw [hpe] at hne
                    exact fun he => hne he.symm
                  rw [hpe]
                  intro he
                  exact hconf q hql hq1 he.symm
              · rcases mem_setA_elim hq with hqe | hql
                · have hp1 : p.1 ≠ c := by
                    rw [hqe] at hne
                    exact hne
                  rw [hqe]
                  exact hconf p hpl hp1
                · exact h p hpl q hql hne hpnick

/-- Witness for C1's amended theorem: the handler keeps the concrete
two-client state duplicate-free. -/
theorem nick_handler_preserves_uniqueness_witness :
    NickUnique (handle_nick_command c1State 2 ["alice"]).1 :=
  nick_handler_preserves_uniqueness c1State 2 ["alice"] (by decide)

theorem writesInsideLock_writes (l : List Nat) (d : Nat) (hd : 0 < d) :
    writesInsideLock (l.map LockAction.netWrite ++ [LockAction.rel]) d = true := by
  induction l with
  | nil => rfl
  | cons x xs ih => simp [writesInsideLock, hd, ih]

/-- Counterexample to claim C2: at a concrete two-member channel the
broadcast routine performs its network write strictly between the lock
acquire and the lock release — the lock is not released before any write. -/
theorem broadcast_lock_not_released_before_write :
    broadcastLockTrace c2State default_channel (some 1)
      = [LockAction.acq, LockAction.netWrite 2, LockAction.rel] ∧
    writesOutsideLock (broadcastLockTrace c2State default_channel (some 1)) 0
      = false := by
  exact ⟨by decide, by decide⟩

/-- Claim C2 as amended: for every state, channel and exclusion, every
network write in the broadcast routine's trace happens while the shared
lock is held; the release comes only after the last write. -/
theorem broadcast_writes_under_lock (s : ServerState) (channel : String)
    (exclude : Option Nat) :
    writesInsideLock (broadcastLockTrace s channel exclude) 0 = true := by
  unfold broadcastLockTrace
  cases lookupA channel s.channels with
  | none => rfl
  | some members =>
      exact writesInsideLock_writes
        (members.filter fun m => decide (some m ≠ exclude)) 1 (by decide)

/-- Claim C3: in every state reachable from startup by accepts, frames,
raw lines, read-failure disconnects and failing broadcasts — hence after
any sequence of joins, leaves and disconnects — every channel present in
the directory has as its member set exactly the live clients whose
joined-channel set contains its name. -/
theorem membership_symmetry_reachable (ops : List Op) :
    ∀ p ∈ (runOps ops).channels, ∀ m : Nat,
      m ∈ p.2 ↔ ∃ q ∈ (runOps ops).clients, q.1 = m ∧ p.1 ∈ q.2.channels := by
  intro p hp m
  have hInv := inv_runOps ops
  constructor
  · intro hm
    rcases List.mem_map.mp (hInv.memReg p hp m hm) with ⟨q, hq, he⟩
    exact ⟨q, hq, he, hInv.memChan p hp m hm q hq he⟩
  · rintro ⟨q, hq, he, hn⟩
    have h2 := hInv.chanMem q hq p.1 hn p hp rfl
    exact he ▸ h2

/-- Witness for C3: after an accept and a default join, channel #general's
member set is exactly the one live client that joined it. -/
theorem membership_symmetry_reachable_witness :
    1 ∈ (("#general", [1]) : String × List Nat).2 ↔
      ∃ q ∈ (runOps [Op.accept 1, Op.rawLine 1 "/join"]).clients,
        q.1 = 1 ∧ (("#general", [1]) : String × List Nat).1 ∈ q.2.channels :=
  membership_symmetry_reachable [Op.accept 1, Op.rawLine 1 "/join"]
    ("#general", [1]) (by decide) 1

/-- Claim C7: in every reachable state the default channel is present in
the directory (possibly with zero members), and every other channel name is
present exactly when some live client has it in its joined set — it exists
from the join that created it until the leave or disconnect that empties
it. -/
theorem default_channel_and_lifecycle (ops : List Op) :
    default_channel ∈ ((runOps ops).channels.map Prod.fst) ∧
    ∀ n : String, n ≠ default_channel →
      (n ∈ (runOps ops).channels.map Prod.fst ↔
        ∃ q ∈ (runOps ops).clients, n ∈ q.2.channels) := by
  have hInv := inv_runOps ops
  refine ⟨hInv.defp, ?_⟩
  intro n hn
  constructor
  · intro hk
    rcases List.mem_map.mp hk with ⟨p, hp, he⟩
    have hpd : p.1 ≠ default_channel := by
      rw [he]
      exact hn
    rcases List.exists_mem_of_ne_nil p.2 (hInv.nde p hp hpd) with ⟨m, hm⟩
    rcases List.mem_map.mp (hInv.memReg p hp m hm) with ⟨q, hq, hqe⟩
    refine ⟨q, hq, ?_⟩
    rw [← he]
    exact hInv.memChan p hp m hm q hq hqe
  · rintro ⟨q, hq, hqn⟩
    exact hInv.chanReg q hq n hqn

/-- Witness for C7: after a join of #x, the default channel is present and
#x is present exactly because its joiner is live. -/
theorem default_channel_and_lifecycle_witness :
    default_channel
        ∈ ((runOps [Op.accept 1, Op.rawLine 1 "/join #x"]).channels.map Prod.fst) ∧
    ("#x" ∈ (runOps [Op.accept 1, Op.rawLine 1 "/join #x"]).channels.map Prod.fst ↔
      ∃ q ∈ (runOps [Op.accept 1, Op.rawLine 1 "/join #x"]).clients,
        "#x" ∈ q.2.channels) :=
  ⟨(default_channel_and_lifecycle [Op.accept 1, Op.rawLine 1 "/join #x"]).1,
   (default_channel_and_lifecycle [Op.accept 1, Op.rawLine 1 "/join #x"]).2 "#x"
     (by decide)⟩

/-- Counterexample to claim C9: client 1 is a member of #x, which has
another member, and has no nickname yet; its nick command succeeds (success
response, nickname stored) yet no nick_change event is broadcast, because
the code guards the broadcast on the previous nickname being non-empty, not
on channel membership. -/
theorem first_nick_no_nick_change :
    lookupA "#x" c9State.channels = some [1, 2] ∧
    (handle_nick_command c9State 1 ["alice"]).2
      = [Action.sendResponse 1 true ("Nickname set to " ++ squote "alice")] ∧
    lookupA 1 ((handle_nick_command c9State 1 ["alice"]).1).clients
      = some ⟨"alice", ["#x"]⟩ ∧
    Action.sendEvent 2 (EventPayload.nick_change "" "alice" "#x")
      ∉ (handle_nick_command c9State 1 ["alice"]).2 := by
  refine ⟨?_, ?_, ?_, ?_⟩ <;> decide

/-- Claim C9 as amended: for every successful nick command issued by a
client whose previous nickname was non-empty, a nick_change event carrying
the old nickname, the new nickname and the channel is delivered to every
member of each of the client's channels other than the client itself. -/
theorem nick_change_broadcast_on_rename (s : ServerState) (c : Nat)
    (name : String) (rest : List String) (info : ClientInfo)
    (hc : lookupA c s.clients = some info) (hold : info.nickname ≠ "")
    (hlen : ¬ name.length > 32)
    (hconf : ¬ ∃ q ∈ s.clients, q.1 ≠ c ∧ q.2.nickname = name) :
    ∀ n ∈ info.channels, ∀ ms : List Nat, lookupA n s.channels = some ms →
      ∀ m ∈ ms, m ≠ c →
        Action.sendEvent m (EventPayload.nick_change info.nickname name n)
          ∈ (handle_nick_command s c (name :: rest)).2 := by
  intro n hn ms hms m hm hmc
  simp only [handle_nick_command, if_neg hlen, dif_neg hconf, hc, if_pos hold]
  exact List.mem_cons_of_mem _
    (foldAppend_mem
      (fun ch => broadcastDeliver (EventPayload.nick_change info.nickname name ch)
        ch (some c)
        ⟨setA c { info with nickname := name } s.clients, s.channels⟩)
      info.channels hn
      (mem_broadcastDeliver hms hm (by simpa using hmc)) [])

/-- Witness for C9's amended theorem: renaming bob to alice in #x notifies
the other member of #x. -/
theorem nick_change_broadcast_on_rename_witness :
    Action.sendEvent 2 (EventPayload.nick_change "bob" "alice" "#x")
      ∈ (handle_nick_command c9WState 1 ["alice"]).2 :=
  nick_change_broadcast_on_rename c9WState 1 "alice" [] ⟨"bob", ["#x"]⟩
    (by decide) (by decide) (by decide) (by decide) "#x" (by decide) [1, 2]
    (by decide) 2 (by decide) (by decide)

/-- Claim C6 (code bug in the source): client 1 belongs to #x and #y, and
its leave command with no channel argument blocks forever — the handler
holds the lock from line 421 when the first `remove_user_from_channel`
call re-acquires it at line 550 — before any removal, any success
response, and any user_left event. -/
theorem leave_no_args_deadlocks :
    handle_leave_command_locked c6State 1 [] = LockExec.blocked c6State [] ∧
    lookupA 1 c6State.clients = some ⟨"alice", ["#x", "#y"]⟩ ∧
    lookupA "#x" c6State.channels = some [1, 2] ∧
    lookupA "#y" c6State.channels = some [1] := by
  exact ⟨by decide, by decide, by decide, by decide⟩

/-- Claim C4 (code bug in the source): at a concrete broadcast to #g
(members 1, 2, 3, sender 1 excluded) in which the write to member 2 fails,
the event is still delivered to member 3 — the send loop completes before
the cleanup — but the cleanup then blocks forever re-acquiring the
non-reentrant lock inside `disconnect_client` (line 521 holds it, line 588
re-acquires): member 2 stays in the registry and in the channel's member
set, and its socket is never closed. -/
theorem broadcast_failure_cleanup_deadlocks :
    broadcast_to_channel_locked [2] (EventPayload.message "a" "#g" "hi") "#g"
        (some 1) c4State
      = LockExec.blocked c4State
          [Action.sendEvent 3 (EventPayload.message "a" "#g" "hi")] ∧
    lookupA 2 c4State.clients = some ⟨"b", ["#g"]⟩ ∧
    lookupA "#g" c4State.channels = some [1, 2, 3] := by
  exact ⟨by decide, by decide, by decide⟩

end ChatServer
